import Mathlib

/-!
# Verification of the MiniMind transformer core (`model/model.py`)

A shallow embedding, over exact rationals, of the forward-pass computation
graph and the autoregressive generation pipeline of the MiniMind decoder-only
transformer.  The embedding follows the Python source line by line:

* tensors with a batch dimension of one are `List` values over `ℚ`;
* the transcendental functions the source obtains from `torch`
  (`exp` inside softmax, `rsqrt` inside RMSNorm, the complex rotations of
  `precompute_pos_cis`, `silu`, `math.sqrt(head_dim)`) are abstracted as
  function/constant parameters: every claim proved here holds for all
  instantiations of those parameters, hence in particular for the real ones;
* `float("-inf")` entries of a logits row are `Option ℚ` with `none` for `-inf`
  (and softmax maps `-inf` to weight `0`, exactly as `exp` does in the limit);
* dropout layers are identities, matching evaluation mode (`model.eval()`),
  which is the configuration all generation-time claims quantify over;
* fallible steps (`.item()`, the `NotImplementedError` raise) return
  `Option`/`Except`.
-/

namespace MiniMind

/-! ## Basic vector and list infrastructure -/

abbrev Vec := List ℚ
abbrev Mat := List (List ℚ)

/-- Dot product of two rationals vectors (`torch` inner product). -/
def dot (a b : Vec) : ℚ := (List.zipWith (· * ·) a b).sum

/-- `nn.Linear(..., bias=False)`: the matrix (rows = output features) applied
to a vector, `x @ W.T`. -/
def matVec (m : Mat) (v : Vec) : Vec := m.map (fun row => dot row v)

/-- Elementwise sum of two equal-length vectors (residual connections). -/
def addVec (a b : Vec) : Vec := List.zipWith (· + ·) a b

/-- Scalar times vector. -/
def scaleVec (c : ℚ) (v : Vec) : Vec := v.map (fun a => c * a)

/-- `torch.Tensor.view (bsz, seq, heads, head_dim)` over the last axis: split a
vector into consecutive chunks of length `k`.  Fuel-indexed structural
recursion (the fuel `l.length` always suffices, since `k ≠ 0` drops at least
one element per step); keeps the definition kernel-evaluable. -/
def chunksGo (k : ℕ) : ℕ → List ℚ → List (List ℚ)
  | 0, _ => []
  | _, [] => []
  | fuel + 1, l => l.take k :: chunksGo k fuel (l.drop k)

/-- Split a vector into consecutive chunks of length `k`. -/
def chunks (k : ℕ) (l : List ℚ) : List (List ℚ) :=
  if k = 0 then [] else chunksGo k l.length l

/-- Inclusive prefix sums (`torch.cumsum`), with a running accumulator. -/
def scanSum {α : Type} [Add α] (acc : α) : List α → List α
  | [] => []
  | x :: xs => (acc + x) :: scanSum (acc + x) xs

/-- `torch.cumsum` along the last axis. -/
def cumsum {α : Type} [Add α] [OfNat α 0] (l : List α) : List α := scanSum 0 l

/-- Stable insertion into a list sorted by the boolean relation `le`
(the new element goes after all existing elements `b` with `le b a`). -/
def insertBy {α : Type} (le : α → α → Bool) (a : α) : List α → List α
  | [] => [a]
  | b :: bs => if le b a then b :: insertBy le a bs else a :: b :: bs

/-- Stable insertion sort by the boolean relation `le`; models the sorting
primitives of the source (`torch.sort`, `torch.argsort`, `torch.topk`):
the claims of this file depend only on sortedness and permutation, which any
of torch's sort implementations provide. -/
def sortBy {α : Type} (le : α → α → Bool) : List α → List α
  | [] => []
  | a :: as => insertBy le a (sortBy le as)

theorem insertBy_perm {α : Type} (le : α → α → Bool) (a : α) (l : List α) :
    List.Perm (insertBy le a l) (a :: l) := by
  induction l with
  | nil => simp [insertBy]
  | cons b bs ih =>
    simp only [insertBy]
    by_cases h : le b a
    · simp only [h, if_pos]
      exact (List.Perm.cons b ih).trans (List.Perm.swap a b bs)
    · simp [h]

theorem sortBy_perm {α : Type} (le : α → α → Bool) (l : List α) :
    List.Perm (sortBy le l) l := by
  induction l with
  | nil => simp [sortBy]
  | cons a as ih =>
    exact (insertBy_perm le a (sortBy le as)).trans (List.Perm.cons a ih)

theorem insertBy_pairwise {α : Type} (le : α → α → Bool)
    (htot : ∀ x y, le x y = false → le y x = true)
    (htrans : ∀ x y z, le x y = true → le y z = true → le x z = true)
    (a : α) (l : List α)
    (hl : l.Pairwise (fun x y => le x y = true)) :
    (insertBy le a l).Pairwise (fun x y => le x y = true) := by
  induction l with
  | nil => simp [insertBy]
  | cons b bs ih =>
    rcases List.pairwise_cons.mp hl with ⟨hb, hbs⟩
    simp only [insertBy]
    by_cases h : le b a
    · simp only [h, if_pos]
      refine List.pairwise_cons.mpr ⟨?_, ih hbs⟩
      intro x hx
      rcases List.mem_cons.mp ((insertBy_perm le a bs).mem_iff.mp hx) with hxa | hxbs
      · subst hxa; exact h
      · exact hb x hxbs
    · simp only [h, if_neg]
      have hab : le a b = true := htot b a (by simpa using h)
      refine List.pairwise_cons.mpr ⟨?_, hl⟩
      intro x hx
      rcases List.mem_cons.mp hx with hxb | hxbs
      · subst hxb; exact hab
      · exact htrans a b x hab (hb x hxbs)

theorem sortBy_pairwise {α : Type} (le : α → α → Bool)
    (htot : ∀ x y, le x y = false → le y x = true)
    (htrans : ∀ x y z, le x y = true → le y z = true → le x z = true)
    (l : List α) :
    (sortBy le l).Pairwise (fun x y => le x y = true) := by
  induction l with
  | nil => simp [sortBy]
  | cons a as ih => exact insertBy_pairwise le htot htrans a (sortBy le as) ih

theorem getD_range_map {α : Type} (f : ℕ → α) (n i : ℕ) (d : α) :
    ((List.range n).map f).getD i d = if i < n then f i else d := by
  by_cases h : i < n
  · rw [List.getD_eq_getElem _ _ (by simpa using h)]
    simp [h]
  · rw [List.getD_eq_default _ _ (by simpa using Nat.le_of_not_lt h)]
    simp [h]

theorem range_map_getD {α : Type} (l : List α) (d : α) :
    (List.range l.length).map (fun i => l.getD i d) = l := by
  apply List.ext_getElem
  · simp
  · intro i h1 h2
    simp [List.getD_eq_getElem?_getD, List.getElem?_eq_getElem h2]

theorem getLastD_append_right {α : Type} (l l' : List α) (d : α) (h : l' ≠ []) :
    (l ++ l').getLastD d = l'.getLastD d := by
  simp [List.getLastD_eq_getLast?, List.getLast?_append_of_ne_nil _ h]

theorem getD_mem {α : Type} (l : List α) (i : ℕ) (d : α) (h : i < l.length) :
    l.getD i d ∈ l := by
  rw [List.getD_eq_getElem _ _ h]
  exact List.getElem_mem h

/-! ## Softmax

`F.softmax(x, dim=-1)` for a row, with the exponential abstracted: the claims
below hold for every function `exp` (positivity is assumed where a claim needs
it; the real `exp` is positive). -/

/-- `F.softmax` of a plain logits row. -/
def softmaxQ (exp : ℚ → ℚ) (xs : List ℚ) : List ℚ :=
  (xs.map exp).map (fun e => e / (xs.map exp).sum)

/-- The exponential extended to rows holding `-inf` (`none`) entries:
`exp(-inf) = 0`, which is precisely how `F.softmax` treats masked logits. -/
def expO (exp : ℚ → ℚ) : Option ℚ → ℚ
  | none => 0
  | some x => exp x

/-- `F.softmax` of a logits row that may contain `-inf` (`none`) entries. -/
def softmaxRow (exp : ℚ → ℚ) (row : List (Option ℚ)) : List ℚ :=
  (row.map (expO exp)).map (fun e => e / (row.map (expO exp)).sum)

theorem sum_map_div (l : List ℚ) (c : ℚ) :
    (l.map (fun e => e / c)).sum = l.sum / c := by
  induction l with
  | nil => simp
  | cons a as ih => simp [add_div, ih]

theorem exp_sum_pos (exp : ℚ → ℚ) (xs : List ℚ) (hpos : ∀ x, 0 < exp x)
    (hne : xs ≠ []) : 0 < (xs.map exp).sum := by
  cases xs with
  | nil => exact absurd rfl hne
  | cons a as =>
    simp only [List.map_cons, List.sum_cons]
    have : 0 ≤ (as.map exp).sum :=
      List.sum_nonneg (fun x hx => by
        rcases List.mem_map.mp hx with ⟨y, _, rfl⟩
        exact le_of_lt (hpos y))
    linarith [hpos a]

theorem softmaxQ_sum (exp : ℚ → ℚ) (xs : List ℚ) (hpos : ∀ x, 0 < exp x)
    (hne : xs ≠ []) : (softmaxQ exp xs).sum = 1 := by
  have hS := exp_sum_pos exp xs hpos hne
  unfold softmaxQ
  rw [sum_map_div, div_self (ne_of_gt hS)]

theorem softmaxQ_pos (exp : ℚ → ℚ) (xs : List ℚ) (hpos : ∀ x, 0 < exp x)
    (hne : xs ≠ []) : ∀ p ∈ softmaxQ exp xs, 0 < p := by
  intro p hp
  have hS := exp_sum_pos exp xs hpos hne
  unfold softmaxQ at hp
  rcases List.mem_map.mp hp with ⟨e, he, rfl⟩
  rcases List.mem_map.mp he with ⟨y, _, rfl⟩
  exact div_pos (hpos y) hS

/-! ## Repetition penalty (`MiniMindLM._stream`, line 407)

`logits[:, list(set(input_ids.tolist()[0]))] /= rp`: the logit at every
distinct token id already present (in the first batch row) is divided by `rp`,
each exactly once (`set` deduplicates the index list). -/

/-- Divide the logits at the indices listed in `present` by `rp`; other
entries are unchanged.  Membership-based, so duplicate entries of `present`
divide only once, matching `set()` semantics. -/
def applyRepPenalty (rp : ℚ) (present : List ℕ) (logits : List ℚ) : List ℚ :=
  (List.range logits.length).map
    (fun i => if i ∈ present then logits.getD i 0 / rp else logits.getD i 0)

theorem applyRepPenalty_one (present : List ℕ) (logits : List ℚ) :
    applyRepPenalty 1 present logits = logits := by
  unfold applyRepPenalty
  simp only [div_one, ite_self]
  exact range_map_getD logits 0

theorem applyRepPenalty_getD (rp : ℚ) (present : List ℕ) (logits : List ℚ)
    (i : ℕ) (h : i < logits.length) :
    (applyRepPenalty rp present logits).getD i 0
      = if i ∈ present then logits.getD i 0 / rp else logits.getD i 0 := by
  unfold applyRepPenalty
  rw [getD_range_map]
  simp [h]

/-- C3 counterexample: at the concrete already-present token id `0` with logit
`-1`, the penalty `rp = 2 > 1` yields `-1/2`, which is strictly GREATER than
the `rp = 1` value `-1`: dividing a negative logit by `rp > 1` raises it. -/
theorem repPenalty_negative_logit_increases :
    (applyRepPenalty 1 [0] [(-1 : ℚ)]).getD 0 0
      < (applyRepPenalty 2 [0] [(-1 : ℚ)]).getD 0 0 := by
  norm_num [applyRepPenalty]

/-- C3 (amended): `rp = 1` is a no-op, and for `rp > 1` the logit at a present
token id strictly decreases provided that logit is positive (a negative logit
instead increases towards zero, see `repPenalty_negative_logit_increases`). -/
theorem repPenalty_amended (rp : ℚ) (present : List ℕ) (logits : List ℚ)
    (i : ℕ) (hmem : i ∈ present) (hi : i < logits.length) :
    applyRepPenalty 1 present logits = logits
      ∧ (1 < rp → 0 < logits.getD i 0 →
          (applyRepPenalty rp present logits).getD i 0 < logits.getD i 0) := by
  refine ⟨applyRepPenalty_one present logits, ?_⟩
  intro hrp hpos
  rw [applyRepPenalty_getD rp present logits i hi, if_pos hmem]
  exact div_lt_self hpos hrp

/-- Witness for `repPenalty_amended` at a concrete input. -/
theorem repPenalty_amended_witness :
    applyRepPenalty 1 [1] [(5 : ℚ), 4] = [(5 : ℚ), 4]
      ∧ (1 < (2 : ℚ) → 0 < ([(5 : ℚ), 4]).getD 1 0 →
          (applyRepPenalty 2 [1] [(5 : ℚ), 4]).getD 1 0 < ([(5 : ℚ), 4]).getD 1 0) :=
  repPenalty_amended 2 [1] [(5 : ℚ), 4] 1 (by decide) (by decide)

/-! ## `hidden_dim` derivation (`FeedForward.__init__`, lines 153-157)

If `config.hidden_dim is None`, the constructor computes
`hidden_dim = int(2 * (4 * dim) / 3)` (= `8*dim/3` floored, as the source's
own comment notes) and stores
`multiple_of * ((hidden_dim + multiple_of - 1) // multiple_of)` back into the
shared config, so every later `FeedForward` (including MoE experts) sees the
already-set value and leaves it unchanged. -/

/-- The fields of `LMConfig` that `FeedForward.__init__` reads and writes. -/
structure FFConfig where
  dim : ℕ
  hidden_dim : Option ℕ
  multiple_of : ℕ
deriving DecidableEq

/-- The value computed at lines 154-157 when `hidden_dim` is unset. -/
def ffDeriveHidden (dim multiple_of : ℕ) : ℕ :=
  let h1 := 4 * dim
  let h2 := 2 * h1 / 3
  multiple_of * ((h2 + multiple_of - 1) / multiple_of)

/-- The config mutation performed by `FeedForward.__init__` (the construction
of the three linear layers does not touch the config). -/
def ffInitConfig (cfg : FFConfig) : FFConfig :=
  match cfg.hidden_dim with
  | some _ => cfg
  | none => { cfg with hidden_dim := some (ffDeriveHidden cfg.dim cfg.multiple_of) }

/-- C8: with `hidden_dim` unset, the first `FeedForward` constructor derives it
as the smallest multiple of `multiple_of` that is at least `⌊8·dim/3⌋`, and the
value then stays fixed: any later constructor run leaves the config unchanged. -/
theorem hidden_dim_derivation (cfg : FFConfig) (hm : 0 < cfg.multiple_of)
    (h0 : cfg.hidden_dim = none) :
    (ffInitConfig cfg).hidden_dim = some (ffDeriveHidden cfg.dim cfg.multiple_of)
      ∧ ffDeriveHidden cfg.dim cfg.multiple_of % cfg.multiple_of = 0
      ∧ 8 * cfg.dim / 3 ≤ ffDeriveHidden cfg.dim cfg.multiple_of
      ∧ (∀ H, H % cfg.multiple_of = 0 → 8 * cfg.dim / 3 ≤ H →
          ffDeriveHidden cfg.dim cfg.multiple_of ≤ H)
      ∧ ffInitConfig (ffInitConfig cfg) = ffInitConfig cfg := by
  set m := cfg.multiple_of with hmdef
  have h83 : 2 * (4 * cfg.dim) / 3 = 8 * cfg.dim / 3 := by ring_nf
  refine ⟨?_, ?_, ?_, ?_, ?_⟩
  · simp [ffInitConfig, h0]
  · simp [ffDeriveHidden, Nat.mul_mod_right]
  · unfold ffDeriveHidden
    simp only [← h83]
    set h := 2 * (4 * cfg.dim) / 3 with hh
    have hdm := Nat.div_add_mod (h + m - 1) m
    have hlt := Nat.mod_lt (h + m - 1) hm
    omega
  · intro H hHm hHle
    unfold ffDeriveHidden
    simp only [← h83]
    set h := 2 * (4 * cfg.dim) / 3 with hh
    rw [← h83] at hHle
    obtain ⟨t, rfl⟩ : ∃ t, H = m * t :=
      ⟨H / m, (Nat.mul_div_cancel' (Nat.dvd_of_mod_eq_zero hHm)).symm⟩
    have hq : (h + m - 1) / m ≤ t := by
      have hlt : h + m - 1 < (t + 1) * m := by
        have : (t + 1) * m = m * t + m := by ring
        omega
      have := (Nat.div_lt_iff_lt_mul hm).mpr hlt
      omega
    exact Nat.mul_le_mul_left m hq
  · simp [ffInitConfig, h0]

/-- Witness for `hidden_dim_derivation`: `dim = 8`, `multiple_of = 64`:
`⌊64/3⌋ = 21` rounds up to `64`. -/
theorem hidden_dim_derivation_witness :
    (ffInitConfig ⟨8, none, 64⟩).hidden_dim = some 64 := by
  have h := (hidden_dim_derivation ⟨8, none, 64⟩ (by decide) rfl).1
  rw [h]
  decide

/-! ## MoE gate (`MoEGate`, lines 169-238)

`__init__` (lines 170-188) stores the configured fields and initializes the
gating weight; it performs no validation of `scoring_func`.  `forward`
(lines 190-207) computes `logits = hidden @ weight.T`, softmaxes them — raising
`NotImplementedError` for any non-softmax `scoring_func` — selects the `top_k`
scores, and, when `top_k > 1 and norm_topk_prob`, divides the selected weights
by their sum plus `1e-20`. -/

/-- The `LMConfig` fields read by `MoEGate.__init__`. -/
structure GateConfig where
  scoring_func : String
  num_experts_per_tok : ℕ
  n_routed_experts : ℕ
  norm_topk_prob : Bool
deriving DecidableEq

/-- The state stored by `MoEGate.__init__` (the gating weight, initialized by
`kaiming_uniform_`, is supplied separately to `moeGateForward` as the matrix
it multiplies by). -/
structure GateState where
  top_k : ℕ
  n_routed_experts : ℕ
  scoring_func : String
  norm_topk_prob : Bool
deriving DecidableEq

/-- `MoEGate.__init__`: stores the configured fields; there is no validation,
so construction always succeeds (the `NotImplementedError` for an unsupported
`scoring_func` lives in `forward`, line 198). -/
def moeGateInit (cfg : GateConfig) : Except String GateState :=
  Except.ok ⟨cfg.num_experts_per_tok, cfg.n_routed_experts, cfg.scoring_func,
    cfg.norm_topk_prob⟩

/-- `logits = F.linear(hidden_states, self.weight, None)` for one token. -/
def gateLogits (W : Mat) (h : Vec) : List ℚ := matVec W h

/-- `torch.topk(scores, k, dim=-1, sorted=False)` for one token's row:
the `k` (index, score) pairs of largest score. -/
def topkPairs (k : ℕ) (scores : List ℚ) : List (ℕ × ℚ) :=
  (sortBy (fun a b => decide (b.2 ≤ a.2)) scores.enum).take k

/-- Lines 204-207: `denominator = topk_weight.sum(..) + 1e-20;
topk_weight = topk_weight / denominator`. -/
def normTopkWeights (tw : List ℚ) : List ℚ :=
  tw.map (fun w => w / (tw.sum + 1 / 10 ^ 20))

/-- `MoEGate.forward` for one token (lines 190-207; the auxiliary-loss branch
is training-only and does not affect the returned indices/weights):
softmax scoring — any other configured scoring function raises — then top-k
selection and optional normalization. -/
def moeGateForward (exp : ℚ → ℚ) (g : GateState) (W : Mat) (h : Vec) :
    Except String (List ℕ × List ℚ) :=
  if g.scoring_func = "softmax" then
    let scores := softmaxQ exp (gateLogits W h)
    let pairs := topkPairs g.top_k scores
    Except.ok (pairs.map Prod.fst,
      if 1 < g.top_k ∧ g.norm_topk_prob = true
      then normTopkWeights (pairs.map Prod.snd) else pairs.map Prod.snd)
  else Except.error ("insupportable scoring function for MoE gating: " ++ g.scoring_func)

/-- C7 counterexample: constructing a `MoEGate` with the unsupported scoring
function `"sigmoid"` succeeds — the configuration error is NOT raised at
construction time. -/
theorem moeGateInit_not_fatal :
    moeGateInit ⟨"sigmoid", 2, 4, true⟩ = Except.ok ⟨2, 4, "sigmoid", true⟩ := rfl

/-- C7 (amended): an unsupported scoring function is accepted at construction
(`__init__` always returns a state) and the unrecoverable
`NotImplementedError` is raised only at the first `forward` call. -/
theorem moeGate_scoring_error_at_forward (cfg : GateConfig) (exp : ℚ → ℚ)
    (g : GateState) (W : Mat) (h : Vec) (hs : g.scoring_func ≠ "softmax") :
    (∃ s, moeGateInit cfg = Except.ok s)
      ∧ moeGateForward exp g W h
          = Except.error ("insupportable scoring function for MoE gating: "
              ++ g.scoring_func) := by
  refine ⟨⟨_, rfl⟩, ?_⟩
  unfold moeGateForward
  rw [if_neg hs]

/-- Witness for `moeGate_scoring_error_at_forward` at the concrete scoring
function `"sigmoid"`. -/
theorem moeGate_scoring_error_at_forward_witness :
    (∃ s, moeGateInit ⟨"sigmoid", 2, 4, true⟩ = Except.ok s)
      ∧ moeGateForward (fun x => x) ⟨2, 4, "sigmoid", true⟩ [[1]] [1]
          = Except.error ("insupportable scoring function for MoE gating: "
              ++ "sigmoid") :=
  moeGate_scoring_error_at_forward ⟨"sigmoid", 2, 4, true⟩ (fun x => x)
    ⟨2, 4, "sigmoid", true⟩ [[1]] [1] (by decide)

theorem sum_map_mul_const (l : List ℚ) (c : ℚ) :
    (l.map (fun x => x * c)).sum = l.sum * c := by
  induction l with
  | nil => simp
  | cons a as ih => simp [ih, add_mul]

/-- In a descending-sorted nonnegative list, the first `k` elements carry at
least a `k / length` share of the total sum. -/
theorem sorted_topk_sum (vals : List ℚ) (k : ℕ)
    (hsort : vals.Pairwise (fun a b => b ≤ a))
    (hpos : ∀ x ∈ vals, 0 ≤ x) (hk : k ≤ vals.length) :
    vals.sum * (k : ℚ) ≤ (vals.take k).sum * (vals.length : ℚ) := by
  set A := vals.take k with hA
  set B := vals.drop k with hB
  have hsplit : vals = A ++ B := (List.take_append_drop k vals).symm
  have hAB : ∀ a ∈ A, ∀ b ∈ B, b ≤ a := by
    have := hsplit ▸ hsort
    exact fun a ha b hb => (List.pairwise_append.mp this).2.2 a ha b hb
  have hAlen : A.length = k := by
    rw [hA, List.length_take]
    exact Nat.min_eq_left hk
  have hblek : ∀ b ∈ B, b * (k : ℚ) ≤ A.sum := by
    intro b hb
    have h1 : A.length • b ≤ A.sum :=
      List.card_nsmul_le_sum A b (fun a ha => hAB a ha b hb)
    rw [hAlen, nsmul_eq_mul] at h1
    linarith [h1]
  have hBsum : B.sum * (k : ℚ) ≤ (B.length : ℚ) * A.sum := by
    have h1 : (B.map (fun b => b * (k : ℚ))).sum ≤ (B.map (fun b => b * (k : ℚ))).length • A.sum :=
      List.sum_le_card_nsmul _ _ (fun x hx => by
        rcases List.mem_map.mp hx with ⟨b, hb, rfl⟩
        exact hblek b hb)
    rw [sum_map_mul_const, List.length_map, nsmul_eq_mul] at h1
    exact h1
  have hsum : vals.sum = A.sum + B.sum := by rw [hsplit, List.sum_append]
  have hlen : (vals.length : ℚ) = (k : ℚ) + (B.length : ℚ) := by
    have : vals.length = A.length + B.length := by rw [hsplit, List.length_append]
    rw [this, hAlen]
    push_cast
    ring
  have hApos : 0 ≤ A.sum :=
    List.sum_nonneg (fun x hx => hpos x (hsplit ▸ List.mem_append_left B hx))
  rw [hsum, hlen]
  nlinarith [hBsum, hApos]

/-- C6: whenever `top_k > 1` and `norm_topk_prob` is set, the `top_k` routing
weights returned by `MoEGate.forward` sum to `1` within `1e-6` for every token
(exactly: the sum is `s/(s + 1e-20)` with `s ≥ top_k/n_experts`, so the defect
is at most `1e-20·n/k ≤ 1e-6` for any realistic expert count, here bounded by
`10^12`). -/
theorem moeGateForward_softmax_norm (exp : ℚ → ℚ) (g : GateState) (W : Mat)
    (h : Vec) (hs : g.scoring_func = "softmax")
    (hcond : 1 < g.top_k ∧ g.norm_topk_prob = true) :
    moeGateForward exp g W h
      = Except.ok
          ((topkPairs g.top_k (softmaxQ exp (gateLogits W h))).map Prod.fst,
            normTopkWeights
              ((topkPairs g.top_k (softmaxQ exp (gateLogits W h))).map Prod.snd)) := by
  unfold moeGateForward
  rw [if_pos hs]
  simp only [if_pos hcond]

theorem gate_topk_weights_sum_one (exp : ℚ → ℚ) (g : GateState) (W : Mat)
    (h : Vec) (hexp : ∀ x, 0 < exp x) (hs : g.scoring_func = "softmax")
    (hnorm : g.norm_topk_prob = true) (hk : 1 < g.top_k)
    (hkn : g.top_k ≤ W.length) (hbound : (W.length : ℚ) ≤ 10 ^ 12) :
    ∃ ti tw, moeGateForward exp g W h = Except.ok (ti, tw)
      ∧ |tw.sum - 1| ≤ 1 / 10 ^ 6 := by
  have hslen : (softmaxQ exp (gateLogits W h)).length = W.length := by
    simp [softmaxQ, gateLogits, matVec]
  have hsne : softmaxQ exp (gateLogits W h) ≠ [] := by
    intro hnil
    rw [hnil] at hslen
    simp at hslen
    omega
  have hlogne : gateLogits W h ≠ [] := by
    intro hnil
    apply hsne
    simp [softmaxQ, hnil]
  have hperm : List.Perm
      ((sortBy (fun a b : ℕ × ℚ => decide (b.2 ≤ a.2))
        (softmaxQ exp (gateLogits W h)).enum).map Prod.snd)
      (softmaxQ exp (gateLogits W h)) := by
    have h1 := (sortBy_perm (fun a b : ℕ × ℚ => decide (b.2 ≤ a.2))
      (softmaxQ exp (gateLogits W h)).enum).map Prod.snd
    rw [List.enum_map_snd] at h1
    exact h1
  generalize hvals : (sortBy (fun a b : ℕ × ℚ => decide (b.2 ≤ a.2))
      (softmaxQ exp (gateLogits W h)).enum).map Prod.snd = vals at hperm
  have hsorted : vals.Pairwise (fun a b => b ≤ a) := by
    have h1 := sortBy_pairwise (fun a b : ℕ × ℚ => decide (b.2 ≤ a.2))
      (fun x y hxy => by
        simp only [decide_eq_false_iff_not] at hxy
        simpa using le_of_not_le hxy)
      (fun x y z hxy hyz => by
        simp only [decide_eq_true_eq] at hxy hyz ⊢
        exact le_trans hyz hxy)
      (softmaxQ exp (gateLogits W h)).enum
    rw [← hvals, List.pairwise_map]
    exact h1.imp (fun hab => by simpa using hab)
  have hvlen : vals.length = W.length := by
    rw [hperm.length_eq, hslen]
  have hvpos : ∀ x ∈ vals, 0 < x := fun x hx =>
    softmaxQ_pos exp (gateLogits W h) hexp hlogne x (hperm.mem_iff.mp hx)
  have hvsum : vals.sum = 1 := by
    rw [hperm.sum_eq]
    exact softmaxQ_sum exp (gateLogits W h) hexp hlogne
  have htopk : vals.sum * (g.top_k : ℚ) ≤ (vals.take g.top_k).sum * (vals.length : ℚ) :=
    sorted_topk_sum vals g.top_k hsorted (fun x hx => le_of_lt (hvpos x hx))
      (by omega)
  have hAne : vals.take g.top_k ≠ [] := by
    have hlen : (vals.take g.top_k).length = g.top_k := by
      rw [List.length_take]
      exact Nat.min_eq_left (by omega)
    intro hnil
    rw [hnil] at hlen
    simp at hlen
    omega
  have hApos : 0 < (vals.take g.top_k).sum :=
    List.sum_pos _ (fun x hx => hvpos x (List.mem_of_mem_take hx)) hAne
  have htw : (topkPairs g.top_k (softmaxQ exp (gateLogits W h))).map Prod.snd
      = vals.take g.top_k := by
    rw [topkPairs, List.map_take, hvals]
  refine ⟨(topkPairs g.top_k (softmaxQ exp (gateLogits W h))).map Prod.fst,
    normTopkWeights (vals.take g.top_k), ?_, ?_⟩
  · rw [moeGateForward_softmax_norm exp g W h hs ⟨hk, hnorm⟩, htw]
  · have hsum_tw : (normTopkWeights (vals.take g.top_k)).sum
        = (vals.take g.top_k).sum / ((vals.take g.top_k).sum + 1 / 10 ^ 20) := by
      unfold normTopkWeights
      rw [sum_map_div]
    rw [hsum_tw]
    set s := (vals.take g.top_k).sum with hsdef
    have hd : (0 : ℚ) < s + 1 / 10 ^ 20 := by positivity
    have hklb : (2 : ℚ) ≤ (g.top_k : ℚ) := by exact_mod_cast hk
    have hslb : (2 : ℚ) / 10 ^ 12 ≤ s := by
      have h1 : s * (vals.length : ℚ) ≤ s * 10 ^ 12 := by
        apply mul_le_mul_of_nonneg_left _ (le_of_lt hApos)
        rw [hvlen]
        exact hbound
      have h2 : (g.top_k : ℚ) ≤ s * (vals.length : ℚ) := by
        rw [hvsum, one_mul] at htopk
        exact htopk
      nlinarith
    rw [div_sub_one (ne_of_gt hd)]
    have heq : s - (s + 1 / 10 ^ 20) = -(1 / 10 ^ 20) := by ring
    rw [heq, neg_div, abs_neg, abs_of_pos (by positivity)]
    rw [div_le_div_iff₀ hd (by norm_num)]
    nlinarith

/-- Witness for `gate_topk_weights_sum_one`: three experts, `top_k = 2`,
constant gate scores. -/
theorem gate_topk_weights_sum_one_witness :
    ∃ ti tw, moeGateForward (fun _ => 1) ⟨2, 3, "softmax", true⟩
        [[1], [1], [1]] [1] = Except.ok (ti, tw)
      ∧ |tw.sum - 1| ≤ 1 / 10 ^ 6 :=
  gate_topk_weights_sum_one (fun _ => 1) ⟨2, 3, "softmax", true⟩
    [[1], [1], [1]] [1] (fun _ => one_pos) rfl rfl (by decide) (by decide)
    (by norm_num)

/-! ## The generation loop (`MiniMindLM._stream` / `generate`, lines 373-422)

`_stream` loops `while input_ids.shape[1] < max_new_tokens - 1`: the guard
bounds the TOTAL sequence length (prompt included), not the number of newly
generated tokens.  Each iteration samples one token, appends it, yields
`input_ids[:, start:]` (the generated suffix), and breaks on EOS.
The sampling pipeline inside an iteration is modelled separately (see the
nucleus-filter and batch-step sections); for the loop-shape claims the whole
per-step token choice is abstracted as `step : List ℕ → ℕ`, a function of the
current sequence — the loop's length behaviour is independent of it.

The recursion is phrased with the explicit fuel `max_new_tokens - 1 - len`,
which is exactly the number of iterations the Python `while` guard still
allows: the guard `len < maxNew - 1` holds iff the fuel is positive, and each
iteration grows `len` by one while the fuel drops by one. -/

/-- The `while` loop of `_stream` (lines 400-422), returning the list of
yielded suffixes. `fuel` is `maxNew - 1 - ids.length` at entry. -/
def streamGo (step : List ℕ → ℕ) (eos start : ℕ) : ℕ → List ℕ → List (List ℕ)
  | 0, _ => []
  | fuel + 1, ids =>
    let nxt := step ids
    let ids2 := ids ++ [nxt]
    ids2.drop start :: (if nxt = eos then [] else streamGo step eos start fuel ids2)

/-- `MiniMindLM._stream` for one batch row: the sequence of yields. -/
def streamYields (step : List ℕ → ℕ) (eos maxNew start : ℕ) (ids : List ℕ) :
    List (List ℕ) :=
  streamGo step eos start (maxNew - 1 - ids.length) ids

/-- `MiniMindLM.generate` (non-stream path, lines 380-396) for one batch row:
strip pad tokens, stream, take the last token of each yield
(`tokens[:, -1:]`), concatenate them — or, when no token was yielded, fall
back to `non_pad` itself (`if tokens_list else non_pad`) — and append to the
prompt. -/
def generateRow (step : List ℕ → ℕ) (eos maxNew padId : ℕ) (row : List ℕ) :
    List ℕ :=
  let nonPad := row.filter (fun t => t ≠ padId)
  let outs := streamYields step eos maxNew nonPad.length nonPad
  let tokensList := outs.map (fun t => t.drop (t.length - 1))
  let gen := if tokensList.isEmpty then nonPad else tokensList.flatten
  nonPad ++ gen

/-- C2 as stated is false of the code, and the code contradicts the evident
intent of its own parameter name: with `max_new_tokens = 1` the loop guard
`input_ids.shape[1] < max_new_tokens - 1` is immediately false, `_stream`
yields nothing, and `generate`'s empty-fallback `gen = non_pad` makes the
returned row the prompt concatenated with itself (length 6 here, not 4): it
neither produces one token nor leaves the prompt alone. `step` is the
(irrelevant) sampler; `9` is an arbitrary next-token choice. -/
theorem generate_maxNewTokens_one_duplicates_prompt :
    generateRow (fun _ => 9) 2 1 0 [3, 5, 7] = [3, 5, 7, 3, 5, 7]
      ∧ streamYields (fun _ => 9) 2 1 3 [3, 5, 7] = [] := by
  constructor <;> rfl

/-- The loop-termination half of C2, which does hold: every yielded suffix is
nonempty, successive yields grow by one token, and the loop stops: the number
of yields is at most `maxNew - 1 - ids.length` (the total-length bound) and,
whenever the sampler hits EOS, the loop breaks immediately. -/
theorem streamYields_length_le (step : List ℕ → ℕ) (eos maxNew start : ℕ)
    (ids : List ℕ) :
    (streamYields step eos maxNew start ids).length ≤ maxNew - 1 - ids.length := by
  unfold streamYields
  generalize maxNew - 1 - ids.length = fuel
  induction fuel generalizing ids with
  | zero => simp [streamGo]
  | succ n ih =>
    simp only [streamGo, List.length_cons]
    by_cases h : step ids = eos
    · simp [h]
    · simp only [h, if_neg, Nat.add_le_add_iff_right]
      exact ih _

/-! ## Nucleus (top-p) filtering (`MiniMindLM._stream`, lines 409-417)

```
if top_p is not None and top_p < 1.0:
    sorted_logits, sorted_indices = torch.sort(logits, descending=True, dim=-1)
    sorted_probs = F.softmax(sorted_logits, dim=-1)
    cumulative_probs = torch.cumsum(sorted_probs, dim=-1)
    sorted_indices_to_remove = cumulative_probs > top_p
    sorted_indices_to_remove[:, 1:] = sorted_indices_to_remove[:, :-1].clone()
    sorted_indices_to_remove[:, 0] = False
    indices_to_remove = sorted_indices_to_remove.scatter(1, sorted_indices, sorted_indices_to_remove)
    logits[indices_to_remove] = -float('Inf')
```
-/

/-- `torch.sort(logits, descending=True)`'s index tensor for one row:
the original positions ordered by descending logit value. -/
def sortedIdxOf (logits : List ℚ) : List ℕ :=
  sortBy (fun a b => decide (logits.getD b 0 ≤ logits.getD a 0))
    (List.range logits.length)

/-- `sorted_logits`: the row's values in descending order. -/
def sortedLogitsOf (logits : List ℚ) : List ℚ :=
  (sortedIdxOf logits).map (fun i => logits.getD i 0)

/-- `cumulative_probs = torch.cumsum(F.softmax(sorted_logits), dim=-1)`. -/
def cumProbs (exp : ℚ → ℚ) (logits : List ℚ) : List ℚ :=
  cumsum (softmaxQ exp (sortedLogitsOf logits))

/-- The scatter of lines 413-416: `removedAt[orig_index]` says whether that
original position is masked.  The base tensor of the `scatter` call is
`sorted_indices_to_remove` itself (already shifted right by one with
position 0 forced to `False`); since `sorted_indices` is a permutation, every
entry is overwritten. -/
def removedMask (topP : ℚ) (exp : ℚ → ℚ) (logits : List ℚ) : List Bool :=
  let removeS := (cumProbs exp logits).map (fun c => decide (topP < c))
  let removeShift := false :: removeS.dropLast
  ((sortedIdxOf logits).zip removeShift).foldl
    (fun acc pr => acc.set pr.1 pr.2) removeShift

/-- Lines 409-417: the whole nucleus-filtering step for one logits row.
`none` is `-inf`; with `top_p ≥ 1.0` the branch is not taken and the row is
returned unchanged. -/
def topPFilter (exp : ℚ → ℚ) (topP : ℚ) (logits : List ℚ) : List (Option ℚ) :=
  if topP < 1 then
    (List.range logits.length).map
      (fun i => if (removedMask topP exp logits).getD i false then none
                else some (logits.getD i 0))
  else logits.map some

/-- Written from the spec sentence, for comparison with the code: the length
of "the smallest descending-sorted prefix whose cumulative softmax probability
exceeds top_p" (all of them if none exceeds). -/
def nucleusKeepLen (topP : ℚ) (cum : List ℚ) : ℕ :=
  min (cum.findIdx (fun c => decide (topP < c)) + 1) cum.length

theorem scanSum_length {α : Type} [AddCommMonoid α] (acc : α) (l : List α) :
    (scanSum acc l).length = l.length := by
  induction l generalizing acc with
  | nil => rfl
  | cons x xs ih => simp [scanSum, ih]

theorem scanSum_getD {α : Type} [AddCommMonoid α] (acc : α) (l : List α)
    (p : ℕ) (hp : p < l.length) :
    (scanSum acc l).getD p 0 = acc + (l.take (p + 1)).sum := by
  induction l generalizing acc p with
  | nil => simp at hp
  | cons x xs ih =>
    cases p with
    | zero => simp [scanSum]
    | succ q =>
      have hq : q < xs.length := by simpa using hp
      simp only [scanSum, List.getD_cons_succ, List.take_succ_cons, List.sum_cons]
      rw [ih (acc + x) q hq, add_assoc]

theorem sum_take_mono (l : List ℚ) (hnn : ∀ x ∈ l, 0 ≤ x) (p q : ℕ)
    (hpq : p ≤ q) : (l.take p).sum ≤ (l.take q).sum := by
  have hq : q = p + (q - p) := by omega
  rw [hq, List.take_add, List.sum_append]
  have : 0 ≤ ((l.drop p).take (q - p)).sum :=
    List.sum_nonneg (fun x hx =>
      hnn x (List.mem_of_mem_drop (List.mem_of_mem_take hx)))
  linarith

theorem getD_set_ne {α : Type} (l : List α) (i j : ℕ) (v d : α) (h : i ≠ j) :
    (l.set i v).getD j d = l.getD j d := by
  simp [List.getD_eq_getElem?_getD, List.getElem?_set_ne h]

theorem getD_set_self {α : Type} (l : List α) (i : ℕ) (v d : α)
    (h : i < l.length) : (l.set i v).getD i d = v := by
  simp [List.getD_eq_getElem?_getD, List.getElem?_set_self', List.getElem?_eq_getElem, h]

theorem foldl_set_getD_not_mem (ps : List (ℕ × Bool)) (base : List Bool)
    (k : ℕ) (hk : k ∉ ps.map Prod.fst) :
    (ps.foldl (fun acc pr => acc.set pr.1 pr.2) base).getD k false
      = base.getD k false := by
  induction ps generalizing base with
  | nil => rfl
  | cons a rest ih =>
    simp only [List.map_cons, List.mem_cons] at hk
    push_neg at hk
    simp only [List.foldl_cons]
    rw [ih _ hk.2]
    exact getD_set_ne base a.1 k a.2 false (fun h => hk.1 h.symm)

/-- `scatter` with pairwise-distinct target positions: the written value wins,
regardless of the base tensor's content or later writes. -/
theorem foldl_set_getD (ps : List (ℕ × Bool)) (base : List Bool)
    (hnd : (ps.map Prod.fst).Nodup) (k : ℕ) (v : Bool)
    (hmem : (k, v) ∈ ps) (hk : k < base.length) :
    (ps.foldl (fun acc pr => acc.set pr.1 pr.2) base).getD k false = v := by
  induction ps generalizing base with
  | nil => simp at hmem
  | cons a rest ih =>
    simp only [List.map_cons, List.nodup_cons] at hnd
    simp only [List.foldl_cons]
    rcases List.mem_cons.mp hmem with heq | hrest
    · rw [← heq] at hnd ⊢
      rw [foldl_set_getD_not_mem rest _ k hnd.1]
      exact getD_set_self base k v false hk
    · exact ih _ hnd.2 hrest (by simpa using hk)

theorem sortedIdxOf_length (logits : List ℚ) :
    (sortedIdxOf logits).length = logits.length := by
  unfold sortedIdxOf
  rw [(sortBy_perm _ _).length_eq, List.length_range]

theorem sortedIdxOf_nodup (logits : List ℚ) : (sortedIdxOf logits).Nodup :=
  ((sortBy_perm _ _).nodup_iff).mpr (List.nodup_range logits.length)

theorem sortedIdxOf_mem_lt (logits : List ℚ) (i : ℕ)
    (h : i ∈ sortedIdxOf logits) : i < logits.length := by
  have := (sortBy_perm _ _).mem_iff.mp h
  simpa using this

theorem removedMask_getD (topP : ℚ) (exp : ℚ → ℚ) (logits : List ℚ) (p : ℕ)
    (hp : p < logits.length) :
    (removedMask topP exp logits).getD ((sortedIdxOf logits).getD p 0) false
      = (false :: ((cumProbs exp logits).map
          (fun c => decide (topP < c))).dropLast).getD p false := by
  have hcumlen : (cumProbs exp logits).length = logits.length := by
    simp [cumProbs, cumsum, scanSum_length, softmaxQ, sortedLogitsOf, sortedIdxOf_length]
  have hshiftlen :
      (false :: ((cumProbs exp logits).map
        (fun c => decide (topP < c))).dropLast).length = logits.length := by
    simp only [List.length_cons, List.length_dropLast, List.length_map, hcumlen]
    omega
  have hsilen := sortedIdxOf_length logits
  have hziplen : ((sortedIdxOf logits).zip
      (false :: ((cumProbs exp logits).map
        (fun c => decide (topP < c))).dropLast)).length = logits.length := by
    simp [List.length_zip, hsilen, hshiftlen]
  have hfst : ((sortedIdxOf logits).zip
      (false :: ((cumProbs exp logits).map
        (fun c => decide (topP < c))).dropLast)).map Prod.fst
      = sortedIdxOf logits :=
    List.map_fst_zip _ _ (by omega)
  have hpz : p < ((sortedIdxOf logits).zip
      (false :: ((cumProbs exp logits).map
        (fun c => decide (topP < c))).dropLast)).length := by omega
  have hps : p < (sortedIdxOf logits).length := by omega
  have hpsh : p < (false :: ((cumProbs exp logits).map
      (fun c => decide (topP < c))).dropLast).length := by omega
  have hmem : ((sortedIdxOf logits).getD p 0,
      (false :: ((cumProbs exp logits).map
        (fun c => decide (topP < c))).dropLast).getD p false)
      ∈ (sortedIdxOf logits).zip
        (false :: ((cumProbs exp logits).map
          (fun c => decide (topP < c))).dropLast) := by
    rw [List.getD_eq_getElem _ _ hps, List.getD_eq_getElem _ _ hpsh]
    rw [← List.getElem_zip (h := hpz)]
    exact List.getElem_mem hpz
  unfold removedMask
  refine foldl_set_getD _ _ ?_ _ _ hmem ?_
  · rw [hfst]
    exact sortedIdxOf_nodup logits
  · rw [hshiftlen]
    refine sortedIdxOf_mem_lt logits _ (getD_mem _ p 0 hps)

theorem cumProbs_length (exp : ℚ → ℚ) (logits : List ℚ) :
    (cumProbs exp logits).length = logits.length := by
  simp [cumProbs, cumsum, scanSum_length, softmaxQ, sortedLogitsOf, sortedIdxOf_length]

theorem cumProbs_getD (exp : ℚ → ℚ) (logits : List ℚ) (p : ℕ)
    (hp : p < logits.length) :
    (cumProbs exp logits).getD p 0
      = ((softmaxQ exp (sortedLogitsOf logits)).take (p + 1)).sum := by
  have hlen : (softmaxQ exp (sortedLogitsOf logits)).length = logits.length := by
    simp [softmaxQ, sortedLogitsOf, sortedIdxOf_length]
  unfold cumProbs cumsum
  rw [scanSum_getD 0 _ p (by omega), zero_add]

theorem sortedLogitsOf_ne_nil (logits : List ℚ) (hne : logits ≠ []) :
    sortedLogitsOf logits ≠ [] := by
  intro h
  apply hne
  have : (sortedLogitsOf logits).length = logits.length := by
    simp [sortedLogitsOf, sortedIdxOf_length]
  rw [h] at this
  exact List.length_eq_zero.mp this.symm

/-- C5: with `top_p = 1.0` the filtering step returns the logits unchanged;
with `top_p < 1.0` the masked original positions are exactly those whose
descending-sort rank lies beyond the smallest sorted prefix whose cumulative
softmax probability exceeds `top_p` (`nucleusKeepLen`, written from the spec's
words), every kept position retains its original logit, and at least the
single highest-probability token (rank 0) is kept. -/
theorem nucleus_filter_spec (exp : ℚ → ℚ) (topP : ℚ) (logits : List ℚ)
    (hexp : ∀ x, 0 < exp x) (hne : logits ≠ []) :
    topPFilter exp 1 logits = logits.map some
      ∧ (topP < 1 →
          1 ≤ nucleusKeepLen topP (cumProbs exp logits)
          ∧ ∀ p, p < logits.length →
            (topPFilter exp topP logits).getD ((sortedIdxOf logits).getD p 0) none
              = if nucleusKeepLen topP (cumProbs exp logits) ≤ p then none
                else some (logits.getD ((sortedIdxOf logits).getD p 0) 0)) := by
  constructor
  · unfold topPFilter
    rw [if_neg (lt_irrefl 1)]
  intro htopP
  have hn1 : 1 ≤ logits.length := by
    cases logits with
    | nil => exact absurd rfl hne
    | cons a as => simp
  have hsl_ne := sortedLogitsOf_ne_nil logits hne
  have hprobs_len : (softmaxQ exp (sortedLogitsOf logits)).length = logits.length := by
    simp [softmaxQ, sortedLogitsOf, sortedIdxOf_length]
  have hprobs_pos := softmaxQ_pos exp (sortedLogitsOf logits) hexp hsl_ne
  have hprobs_sum := softmaxQ_sum exp (sortedLogitsOf logits) hexp hsl_ne
  have hcumlen := cumProbs_length exp logits
  have hlast : (cumProbs exp logits).getD (logits.length - 1) 0 = 1 := by
    rw [cumProbs_getD exp logits _ (by omega)]
    have : logits.length - 1 + 1 = (softmaxQ exp (sortedLogitsOf logits)).length := by
      omega
    rw [this, List.take_length]
    exact hprobs_sum
  have hmono : ∀ p q, p ≤ q → q < logits.length →
      (cumProbs exp logits).getD p 0 ≤ (cumProbs exp logits).getD q 0 := by
    intro p q hpq hq
    rw [cumProbs_getD exp logits p (by omega), cumProbs_getD exp logits q hq]
    exact sum_take_mono _ (fun x hx => le_of_lt (hprobs_pos x hx)) _ _ (by omega)
  have hfi_lt : (cumProbs exp logits).findIdx (fun c => decide (topP < c))
      < (cumProbs exp logits).length := by
    apply List.findIdx_lt_length_of_exists
    refine ⟨(cumProbs exp logits).getD (logits.length - 1) 0,
      getD_mem _ _ 0 (by omega), ?_⟩
    rw [hlast]
    simpa using htopP
  have hL : nucleusKeepLen topP (cumProbs exp logits)
      = (cumProbs exp logits).findIdx (fun c => decide (topP < c)) + 1 := by
    unfold nucleusKeepLen
    omega
  refine ⟨by omega, ?_⟩
  intro p hp
  have hi_lt : (sortedIdxOf logits).getD p 0 < logits.length :=
    sortedIdxOf_mem_lt logits _
      (getD_mem _ p 0 (by rw [sortedIdxOf_length]; omega))
  unfold topPFilter
  rw [if_pos htopP, getD_range_map, if_pos hi_lt,
    removedMask_getD topP exp logits p hp]
  have hremove : ((false :: ((cumProbs exp logits).map
      (fun c => decide (topP < c))).dropLast).getD p false = true)
      ↔ nucleusKeepLen topP (cumProbs exp logits) ≤ p := by
    cases p with
    | zero => simp [hL]
    | succ q =>
      have hq : q < logits.length - 1 := by omega
      have hq2 : q < ((cumProbs exp logits).map
          (fun c => decide (topP < c))).dropLast.length := by
        simp only [List.length_dropLast, List.length_map, hcumlen]
        omega
      have hq3 : q < ((cumProbs exp logits).map
          (fun c => decide (topP < c))).length := by
        simp only [List.length_map, hcumlen]
        omega
      have hq4 : q < (cumProbs exp logits).length := by omega
      rw [List.getD_cons_succ, List.getD_eq_getElem _ _ hq2,
        List.getElem_dropLast, List.getElem_map]
      rw [hL]
      constructor
      · intro hdec
        simp only [decide_eq_true_eq] at hdec
        by_contra hcon
        push_neg at hcon
        have hqfi : q < (cumProbs exp logits).findIdx (fun c => decide (topP < c)) := by
          omega
        have := List.not_of_lt_findIdx hqfi
        exact absurd hdec (by simpa using this)
      · intro hle
        have hfiq : (cumProbs exp logits).findIdx (fun c => decide (topP < c)) ≤ q := by
          omega
        have hpred := List.findIdx_getElem (w := hfi_lt)
        simp only [decide_eq_true_eq] at hpred
        have := hmono _ q hfiq (by omega)
        rw [List.getD_eq_getElem _ _ hq4] at this
        rw [List.getD_eq_getElem _ _ hfi_lt] at this
        simp only [decide_eq_true_eq]
        linarith
  by_cases hrem : (false :: ((cumProbs exp logits).map
      (fun c => decide (topP < c))).dropLast).getD p false = true
  · rw [if_pos hrem, if_pos (hremove.mp hrem)]
  · rw [if_neg hrem]
    rw [if_neg (fun hcon => hrem (hremove.mpr hcon))]

/-- Witness for `nucleus_filter_spec` at concrete logits `[0, 1]`,
`top_p = 1/2`, `exp = id`-like positive function. -/
theorem nucleus_filter_spec_witness :
    topPFilter (fun _ => 1) 1 [(0 : ℚ), 1] = [(0 : ℚ), 1].map some
      ∧ ((1 : ℚ) / 2 < 1 →
          1 ≤ nucleusKeepLen (1 / 2) (cumProbs (fun _ => 1) [(0 : ℚ), 1])
          ∧ ∀ p, p < ([(0 : ℚ), 1]).length →
            (topPFilter (fun _ => 1) (1 / 2) [(0 : ℚ), 1]).getD
                ((sortedIdxOf [(0 : ℚ), 1]).getD p 0) none
              = if nucleusKeepLen (1 / 2) (cumProbs (fun _ => 1) [(0 : ℚ), 1]) ≤ p
                then none
                else some (([(0 : ℚ), 1]).getD ((sortedIdxOf [(0 : ℚ), 1]).getD p 0) 0)) :=
  nucleus_filter_spec (fun _ => 1) (1 / 2) [(0 : ℚ), 1] (fun _ => one_pos)
    (by decide)

/-! ## One `_stream` iteration on a batch (`MiniMindLM._stream`, lines 406-422)

`_stream` is written for a batch of one sequence but receives a `(bsz, len)`
tensor.  Two places hard-code the single-row assumption:
* line 407 takes `set(input_ids.tolist()[0])` — the distinct token ids of the
  FIRST row only — and applies the penalty to every row of `logits`;
* line 421 calls `input_ids_next.item()`, which raises for tensors holding
  more than one element.
The model call and last-position slice of line 406 are upstream of this step;
the step is parametrized by the resulting per-row logits `logitsB` and by the
`torch.multinomial` draw `sample`. -/

/-- Line 407 on a batch: `logits[:, list(set(input_ids.tolist()[0]))] /= rp`. -/
def repPenalizeBatch (rp : ℚ) (rows : List (List ℕ))
    (logitsB : List (List ℚ)) : List (List ℚ) :=
  logitsB.map (applyRepPenalty rp (rows.getD 0 []).dedup)

/-- `torch.Tensor.item()`: raises unless the tensor holds exactly one
element. -/
def itemNat (l : List ℕ) : Except String ℕ :=
  if l.length = 1 then Except.ok (l.getD 0 0)
  else Except.error "only one element tensors can be converted to Python scalars"

/-- Lines 407-418: penalty, temperature, nucleus filter, softmax, sample —
the next-token choice for every batch row. -/
def streamStepNexts (sample : List ℚ → ℕ) (exp : ℚ → ℚ) (rp temp topP : ℚ)
    (rows : List (List ℕ)) (logitsB : List (List ℚ)) : List ℕ :=
  (((repPenalizeBatch rp rows logitsB).map
      (fun r => r.map (fun v => v / (temp + 1 / 10 ^ 9)))).map
        (topPFilter exp topP)).map
    (fun r => sample (softmaxRow exp r))

/-- Lines 407-422: one full loop iteration — sample next tokens, append them
(`torch.cat`, line 419), then test EOS via `.item()` (line 421). -/
def streamStepBatch (sample : List ℚ → ℕ) (exp : ℚ → ℚ) (rp temp topP : ℚ)
    (eos : ℕ) (rows : List (List ℕ)) (logitsB : List (List ℚ)) :
    Except String (List (List ℕ) × Bool) :=
  let nexts := streamStepNexts sample exp rp temp topP rows logitsB
  let rows2 := (rows.zip nexts).map (fun pr => pr.1 ++ [pr.2])
  match itemNat nexts with
  | Except.ok v => Except.ok (rows2, decide (v = eos))
  | Except.error msg => Except.error msg

theorem streamStepNexts_length (sample : List ℚ → ℕ) (exp : ℚ → ℚ)
    (rp temp topP : ℚ) (rows : List (List ℕ)) (logitsB : List (List ℚ)) :
    (streamStepNexts sample exp rp temp topP rows logitsB).length
      = logitsB.length := by
  simp [streamStepNexts, repPenalizeBatch]

/-- C10: the sampled tokens of a stream iteration depend on the token ids of
the first batch row only (the penalty set is read from row 0 and applied to
every row — second conjunct), and for any batch of more than one row the
iteration raises at the EOS-check `.item()` call. -/
theorem stream_step_batch_row0_and_item_error (sample : List ℚ → ℕ)
    (exp : ℚ → ℚ) (rp temp topP : ℚ) (eos : ℕ)
    (rows rows' : List (List ℕ)) (logitsB : List (List ℚ))
    (hhead : rows.getD 0 [] = rows'.getD 0 [])
    (hbsz : 2 ≤ logitsB.length) :
    streamStepNexts sample exp rp temp topP rows logitsB
        = streamStepNexts sample exp rp temp topP rows' logitsB
      ∧ (∀ r, r < logitsB.length →
          (repPenalizeBatch rp rows logitsB).getD r []
            = applyRepPenalty rp (rows.getD 0 []).dedup (logitsB.getD r []))
      ∧ ∃ msg, streamStepBatch sample exp rp temp topP eos rows logitsB
          = Except.error msg := by
  refine ⟨?_, ?_, ?_⟩
  · unfold streamStepNexts repPenalizeBatch
    rw [hhead]
  · intro r hr
    unfold repPenalizeBatch
    rw [List.getD_eq_getElem _ _ (by simpa using hr), List.getElem_map,
      List.getD_eq_getElem _ _ hr]
  · refine ⟨"only one element tensors can be converted to Python scalars", ?_⟩
    have hlen := streamStepNexts_length sample exp rp temp topP rows logitsB
    have hne1 : ¬ (streamStepNexts sample exp rp temp topP rows logitsB).length = 1 := by
      omega
    simp [streamStepBatch, itemNat, hne1]

/-- Witness for `stream_step_batch_row0_and_item_error` on a concrete
two-row batch. -/
theorem stream_step_batch_row0_and_item_error_witness :
    streamStepNexts (fun _ => 0) (fun _ => 1) 1 1 1 [[1], [2]] [[0], [0]]
        = streamStepNexts (fun _ => 0) (fun _ => 1) 1 1 1 [[1], [3]] [[0], [0]]
      ∧ (∀ r, r < ([[(0 : ℚ)], [0]]).length →
          (repPenalizeBatch 1 [[1], [2]] [[(0 : ℚ)], [0]]).getD r []
            = applyRepPenalty 1 ([[1], [2]].getD 0 []).dedup
                (([[(0 : ℚ)], [0]]).getD r []))
      ∧ ∃ msg, streamStepBatch (fun _ => 0) (fun _ => 1) 1 1 1 2
          [[1], [2]] [[(0 : ℚ)], [0]] = Except.error msg :=
  stream_step_batch_row0_and_item_error (fun _ => 0) (fun _ => 1) 1 1 1 2
    [[1], [2]] [[1], [3]] [[(0 : ℚ)], [0]] rfl (by decide)

/-! ## MoE dispatch (`MOEFeedForward.forward` / `moe_infer`, lines 254-299)

The flattened routing data for a batch of `tokens = x.length` tokens is
`flat_expert_indices : List ℕ` of length `tokens * top_k` (assignment slot `f`
routes token `f / top_k` to expert `flat_expert_indices[f]`) and the matching
flattened weights.  Experts are per-token functions (`FeedForward` applies
position-wise), abstracted here as `expertFn : ℕ → Vec → Vec`; the dispatch
equivalence holds for every such family, in particular for the embedded
`FeedForward`.

Training path (lines 262-269): `x.repeat_interleave(top_k)`, then for each
expert `i` the boolean-mask assignment `y[flat_topk_idx == i] = expert_i(...)`
(slots whose expert index is out of range keep `torch.empty`'s uninitialized
garbage, modelled as `[]` — unreachable when all indices are in range), then
`(y.view(tokens, top_k, -1) * topk_weight.unsqueeze(-1)).sum(dim=1)`.

Inference path (lines 278-299): `argsort` the assignments by expert id,
`bincount().cumsum()` for the per-expert slice boundaries, skip empty slices,
run each expert on its gathered token batch, `mul_` the routing weights and
`scatter_add_` into a zero buffer by original token position (the gathered
batch call `expert(expert_tokens)` is row-wise, so it is embedded per
assignment row). -/

/-- `a + b` keeping `a`'s length (the `scatter_add_` target buffer's row shape
is fixed). -/
def addVecL (a b : Vec) : Vec :=
  (List.range a.length).map (fun i => a.getD i 0 + b.getD i 0)

/-- `torch.zeros_like(x)` (line 280). -/
def zerosLike (x : List Vec) : List Vec := x.map (fun v => v.map (fun _ => 0))

/-- One row of `expert_cache.scatter_add_` (line 297): add `v` into the row at
token position `t`. -/
def scatterAddRow (cache : List Vec) (t : ℕ) (v : Vec) : List Vec :=
  cache.set t (addVecL (cache.getD t []) v)

/-- `idxs = flat_expert_indices.argsort()` (line 281). -/
def argsortIdx (flatIdx : List ℕ) : List ℕ :=
  sortBy (fun a b => decide (flatIdx.getD a 0 ≤ flatIdx.getD b 0))
    (List.range flatIdx.length)

/-- `flat_expert_indices.bincount()` (line 282): length `max + 1`, counting
occurrences of each value. -/
def bincount (l : List ℕ) : List ℕ :=
  (List.range (l.foldr (fun a m => max (a + 1) m) 0)).map (fun i => l.count i)

/-- `MOEFeedForward.moe_infer` (lines 278-299). -/
def moe_infer (expertFn : ℕ → Vec → Vec) (topk : ℕ) (x : List Vec)
    (flatIdx : List ℕ) (flatW : List ℚ) : List Vec :=
  let idxs := argsortIdx flatIdx
  let tpe := cumsum (bincount flatIdx)
  (List.range tpe.length).foldl
    (fun cache i =>
      let startIdx := if i = 0 then 0 else tpe.getD (i - 1) 0
      let endIdx := tpe.getD i 0
      if startIdx = endIdx then cache
      else
        ((idxs.drop startIdx).take (endIdx - startIdx)).foldl
          (fun c f =>
            scatterAddRow c (f / topk)
              (scaleVec (flatW.getD f 0) (expertFn i (x.getD (f / topk) []))))
          cache)
    (zerosLike x)

/-- The training-path `y` buffer after the expert loop of lines 266-267:
slot `f` holds `expert_i(x[f // top_k])` for the unique `i = flat_idx[f]`,
provided `i` lies in `range(n_experts)`; other slots keep the `torch.empty`
garbage (modelled as `[]`). -/
def moeTrainY (expertFn : ℕ → Vec → Vec) (nExperts topk : ℕ) (x : List Vec)
    (flatIdx : List ℕ) : ℕ → Vec :=
  (List.range nExperts).foldl
    (fun y i => fun f =>
      if flatIdx.getD f 0 = i then expertFn i (x.getD (f / topk) []) else y f)
    (fun _ => [])

/-- The training-mode dispatch (lines 262-269): entry `(t, d)` of the output is
`Σ_j topk_weight[t][j] * y[t*top_k + j][d]`. -/
def moeTrainDispatch (expertFn : ℕ → Vec → Vec) (nExperts topk : ℕ)
    (x : List Vec) (flatIdx : List ℕ) (topkW : List (List ℚ)) : List Vec :=
  (List.range x.length).map (fun t =>
    (List.range (x.getD t []).length).map (fun d =>
      ((List.range topk).map (fun j =>
        (topkW.getD t []).getD j 0
          * (moeTrainY expertFn nExperts topk x flatIdx (t * topk + j)).getD d 0)).sum))

theorem addVecL_length (a b : Vec) : (addVecL a b).length = a.length := by
  simp [addVecL]

theorem addVecL_getD (a b : Vec) (d : ℕ) (hd : d < a.length) :
    (addVecL a b).getD d 0 = a.getD d 0 + b.getD d 0 := by
  unfold addVecL
  rw [getD_range_map, if_pos hd]

theorem zerosLike_length (x : List Vec) : (zerosLike x).length = x.length := by
  simp [zerosLike]

theorem zerosLike_row_length (x : List Vec) (t : ℕ) (ht : t < x.length) :
    ((zerosLike x).getD t []).length = (x.getD t []).length := by
  unfold zerosLike
  rw [List.getD_eq_getElem _ _ (by simpa using ht), List.getElem_map,
    List.getD_eq_getElem _ _ ht]
  simp

theorem zerosLike_entry (x : List Vec) (t d : ℕ) :
    ((zerosLike x).getD t []).getD d 0 = 0 := by
  by_cases ht : t < x.length
  · have hrow : (zerosLike x).getD t [] = (x.getD t []).map (fun _ => (0 : ℚ)) := by
      unfold zerosLike
      rw [List.getD_eq_getElem _ _ (by simpa using ht), List.getElem_map,
        List.getD_eq_getElem _ _ ht]
    rw [hrow]
    by_cases hd : d < (x.getD t []).length
    · rw [List.getD_eq_getElem _ _ (by simpa using hd), List.getElem_map]
    · rw [List.getD_eq_default _ _ (by simpa using Nat.le_of_not_lt hd)]
  · have hrow : (zerosLike x).getD t [] = [] := by
      apply List.getD_eq_default
      rw [zerosLike_length]
      exact Nat.le_of_not_lt ht
    rw [hrow]
    rfl

theorem scatterAddRow_length (c : List Vec) (t : ℕ) (v : Vec) :
    (scatterAddRow c t v).length = c.length := by
  simp [scatterAddRow]

theorem scatterAddRow_row_length (c : List Vec) (t t' : ℕ) (v : Vec) :
    ((scatterAddRow c t v).getD t' []).length = (c.getD t' []).length := by
  unfold scatterAddRow
  by_cases h : t = t'
  · subst h
    by_cases ht : t < c.length
    · rw [getD_set_self _ _ _ _ ht, addVecL_length]
    · rw [List.set_eq_of_length_le (Nat.le_of_not_lt ht)]
  · rw [getD_set_ne _ _ _ _ _ h]

theorem sum_map_add_nat {α : Type} (l : List α) (f g : α → ℕ) :
    (l.map (fun v => f v + g v)).sum = (l.map f).sum + (l.map g).sum := by
  induction l with
  | nil => simp
  | cons a as ih => simp [ih]; omega

theorem sum_range_indicator_nat (a n : ℕ) :
    ((List.range n).map (fun v => if v = a then (1 : ℕ) else 0)).sum
      = if a < n then 1 else 0 := by
  induction n with
  | zero => simp
  | succ m ih =>
    rw [List.range_succ, List.map_append, List.sum_append, ih]
    by_cases h : a < m
    · have h2 : ¬ m = a := by omega
      have h3 : a < m + 1 := by omega
      simp [h, h2, h3]
    · by_cases h2 : m = a
      · subst h2
        have h3 : m < m + 1 := by omega
        simp [h, h3]
      · have h3 : ¬ a < m + 1 := by omega
        simp [h, h2, h3]

theorem sum_range_indicator_rat (c : ℚ) (k n : ℕ) :
    ((List.range n).map (fun i => if k = i then c else 0)).sum
      = if k < n then c else 0 := by
  induction n with
  | zero => simp
  | succ m ih =>
    rw [List.range_succ, List.map_append, List.sum_append, ih]
    by_cases h : k < m
    · have h2 : ¬ k = m := by omega
      have h3 : k < m + 1 := by omega
      simp [h, h2, h3]
    · by_cases h2 : k = m
      · subst h2
        have h3 : k < k + 1 := by omega
        simp [h, h3]
      · have h3 : ¬ k < m + 1 := by omega
        simp [h, h2, h3]

theorem foldl_congr_mem {α β : Type} (l : List α) (g1 g2 : β → α → β) (b : β)
    (h : ∀ a ∈ l, ∀ acc, g1 acc a = g2 acc a) : l.foldl g1 b = l.foldl g2 b := by
  induction l generalizing b with
  | nil => rfl
  | cons a rest ih =>
    simp only [List.foldl_cons]
    rw [h a (List.mem_cons_self a rest) b]
    exact ih _ (fun a' ha' acc => h a' (List.mem_cons_of_mem a ha') acc)

theorem foldl_pieces_flatten {α β : Type} (bins : List α) (pieces : α → List ℕ)
    (g : β → ℕ → β) (b : β) :
    bins.foldl (fun c i => (pieces i).foldl g c) b
      = (bins.map pieces).flatten.foldl g b := by
  induction bins generalizing b with
  | nil => rfl
  | cons i rest ih =>
    simp only [List.foldl_cons, List.map_cons, List.flatten_cons,
      List.foldl_append]
    exact ih _

theorem foldl_scatterAdd_length (pos : ℕ → ℕ) (con : ℕ → Vec) (l : List ℕ)
    (cache : List Vec) :
    (l.foldl (fun c f => scatterAddRow c (pos f) (con f)) cache).length
      = cache.length := by
  induction l generalizing cache with
  | nil => rfl
  | cons f rest ih => simp only [List.foldl_cons]; rw [ih, scatterAddRow_length]

theorem foldl_scatterAdd_row_length (pos : ℕ → ℕ) (con : ℕ → Vec) (l : List ℕ)
    (cache : List Vec) (t : ℕ) :
    ((l.foldl (fun c f => scatterAddRow c (pos f) (con f)) cache).getD t []).length
      = (cache.getD t []).length := by
  induction l generalizing cache with
  | nil => rfl
  | cons f rest ih =>
    simp only [List.foldl_cons]
    rw [ih, scatterAddRow_row_length]

/-- `scatter_add_` accumulation: after folding a list of assignment rows into
the cache, entry `(t, d)` has grown by the sum of the contributions routed to
token `t`. -/
theorem foldl_scatterAdd_entry (pos : ℕ → ℕ) (con : ℕ → Vec) (l : List ℕ)
    (cache : List Vec) (t d : ℕ) (ht : t < cache.length)
    (hd : d < (cache.getD t []).length)
    (hpos : ∀ f ∈ l, pos f < cache.length) :
    ((l.foldl (fun c f => scatterAddRow c (pos f) (con f)) cache).getD t []).getD d 0
      = (cache.getD t []).getD d 0
        + (l.map (fun f => if pos f = t then (con f).getD d 0 else 0)).sum := by
  induction l generalizing cache with
  | nil => simp
  | cons f rest ih =>
    simp only [List.foldl_cons, List.map_cons, List.sum_cons]
    rw [ih (scatterAddRow cache (pos f) (con f))
      (by rw [scatterAddRow_length]; exact ht)
      (by rw [scatterAddRow_row_length]; exact hd)
      (fun g hg => by
        rw [scatterAddRow_length]
        exact hpos g (List.mem_cons_of_mem f hg))]
    have hstep : ((scatterAddRow cache (pos f) (con f)).getD t []).getD d 0
        = (cache.getD t []).getD d 0
          + (if pos f = t then (con f).getD d 0 else 0) := by
      unfold scatterAddRow
      by_cases hft : pos f = t
      · rw [if_pos hft, hft, getD_set_self _ _ _ _ ht, addVecL_getD _ _ _ hd]
      · rw [if_neg hft, getD_set_ne _ _ _ _ _ hft, add_zero]
    rw [hstep]
    ring

theorem sum_range_count (l : List ℕ) (i : ℕ) :
    ((List.range (i + 1)).map (fun v => l.count v)).sum
      = l.countP (fun a => decide (a ≤ i)) := by
  induction l with
  | nil => simp
  | cons a as ih =>
    have hcount : ∀ v, (a :: as).count v = as.count v + if v = a then 1 else 0 := by
      intro v
      rw [List.count_cons]
      by_cases h : v = a
      · simp [h]
      · have h2 : ¬ a = v := fun hh => h hh.symm
        simp [h, h2]
    have hmapc : (List.range (i + 1)).map (fun v => (a :: as).count v)
        = (List.range (i + 1)).map
            (fun v => as.count v + if v = a then 1 else 0) := by
      exact List.map_congr_left (fun v _ => hcount v)
    rw [hmapc, sum_map_add_nat, ih, sum_range_indicator_nat, List.countP_cons]
    by_cases h : a ≤ i
    · have h2 : a < i + 1 := by omega
      simp [h, h2]
    · have h2 : ¬ a < i + 1 := by omega
      simp [h, h2]

/-- In a list sorted by `key` whose keys are all `≥ i`, the first
`countP (key ≤ i)` elements are exactly those with `key = i`. -/
theorem sorted_take_countP (key : ℕ → ℕ) (i : ℕ) (l : List ℕ)
    (hsort : l.Pairwise (fun a b => key a ≤ key b))
    (hge : ∀ g ∈ l, i ≤ key g) :
    l.take (l.countP (fun f => decide (key f ≤ i)))
      = l.filter (fun f => decide (key f = i)) := by
  induction l with
  | nil => rfl
  | cons g l ih =>
    rcases List.pairwise_cons.mp hsort with ⟨hg, hl⟩
    by_cases hgi : key g = i
    · rw [List.countP_cons, if_pos (by simpa using le_of_eq hgi),
        List.filter_cons_of_pos (by simpa using hgi), List.take_succ_cons]
      rw [ih hl (fun g' hg' => le_trans (le_of_eq hgi.symm) (hg g' hg'))]
    · have hgt : i < key g :=
        lt_of_le_of_ne (hge g (List.mem_cons_self g l)) (fun h => hgi h.symm)
      have hc0 : l.countP (fun f => decide (key f ≤ i)) = 0 :=
        List.countP_eq_zero.mpr (fun a ha => by
          simpa using not_le_of_lt (lt_of_lt_of_le hgt (hg a ha)))
      rw [List.countP_cons, if_neg (by simpa using not_le_of_lt hgt), hc0]
      rw [List.filter_cons_of_neg (by simpa using hgi)]
      rw [List.take_zero]
      symm
      rw [List.filter_eq_nil_iff]
      intro a ha
      have := lt_of_lt_of_le hgt (hg a ha)
      simp only [decide_eq_true_eq]
      omega

/-- In a list sorted by `key`, the contiguous block
`[countP (key < i), countP (key ≤ i))` is exactly the sublist with
`key = i`: the `bincount().cumsum()` slices of `moe_infer` gather each
expert's assignments. -/
theorem sorted_slice_filter (key : ℕ → ℕ) (i : ℕ) (l : List ℕ)
    (hsort : l.Pairwise (fun a b => key a ≤ key b)) :
    (l.drop (l.countP (fun f => decide (key f < i)))).take
        (l.countP (fun f => decide (key f ≤ i))
          - l.countP (fun f => decide (key f < i)))
      = l.filter (fun f => decide (key f = i)) := by
  induction l with
  | nil => rfl
  | cons g l ih =>
    rcases List.pairwise_cons.mp hsort with ⟨hg, hl⟩
    simp only [List.countP_cons, decide_eq_true_eq]
    rcases Nat.lt_trichotomy (key g) i with hlt | heq | hgt
    · rw [if_pos hlt, if_pos (le_of_lt hlt)]
      rw [List.filter_cons_of_neg (by simp; omega)]
      simp only [List.drop_succ_cons]
      have harith : l.countP (fun f => decide (key f ≤ i)) + 1
          - (l.countP (fun f => decide (key f < i)) + 1)
          = l.countP (fun f => decide (key f ≤ i))
            - l.countP (fun f => decide (key f < i)) := by omega
      rw [harith]
      exact ih hl
    · have hcz : l.countP (fun f => decide (key f < i)) = 0 :=
        List.countP_eq_zero.mpr (fun a ha => by
          have := hg a ha
          simp only [decide_eq_true_eq]
          omega)
      rw [if_neg (show ¬ key g < i by omega), if_pos (le_of_eq heq), hcz]
      simp only [Nat.add_zero, List.drop_zero, Nat.sub_zero, List.take_succ_cons]
      rw [List.filter_cons_of_pos (by simpa using heq)]
      rw [sorted_take_countP key i l hl
        (fun g' hg' => le_trans (le_of_eq heq.symm) (hg g' hg'))]
    · have hcz : l.countP (fun f => decide (key f < i)) = 0 :=
        List.countP_eq_zero.mpr (fun a ha => by
          have := hg a ha
          simp only [decide_eq_true_eq]
          omega)
      have hcz2 : l.countP (fun f => decide (key f ≤ i)) = 0 :=
        List.countP_eq_zero.mpr (fun a ha => by
          have := hg a ha
          simp only [decide_eq_true_eq]
          omega)
      rw [if_neg (show ¬ key g < i by omega),
        if_neg (show ¬ key g ≤ i by omega), hcz, hcz2]
      rw [List.filter_eq_nil_iff.mpr (fun a ha => by
        rcases List.mem_cons.mp ha with rfl | hal
        · simp only [decide_eq_true_eq]
          omega
        · have := hg a hal
          simp only [decide_eq_true_eq]
          omega)]
      rfl

theorem argsortIdx_perm (flatIdx : List ℕ) :
    List.Perm (argsortIdx flatIdx) (List.range flatIdx.length) :=
  sortBy_perm _ _

theorem argsortIdx_sorted (flatIdx : List ℕ) :
    (argsortIdx flatIdx).Pairwise
      (fun a b => flatIdx.getD a 0 ≤ flatIdx.getD b 0) := by
  have h := sortBy_pairwise
    (fun a b : ℕ => decide (flatIdx.getD a 0 ≤ flatIdx.getD b 0))
    (fun x y hxy => by
      simp only [decide_eq_false_iff_not] at hxy
      simpa using le_of_not_le hxy)
    (fun x y z hxy hyz => by
      simp only [decide_eq_true_eq] at hxy hyz ⊢
      exact le_trans hxy hyz)
    (List.range flatIdx.length)
  exact h.imp (fun hab => by simpa using hab)

theorem argsortIdx_mem_lt (flatIdx : List ℕ) (f : ℕ)
    (h : f ∈ argsortIdx flatIdx) : f < flatIdx.length := by
  have := (argsortIdx_perm flatIdx).mem_iff.mp h
  simpa using this

theorem countP_argsort (flatIdx : List ℕ) (p : ℕ → Bool) :
    (argsortIdx flatIdx).countP (fun f => p (flatIdx.getD f 0))
      = flatIdx.countP p := by
  rw [(argsortIdx_perm flatIdx).countP_eq]
  have h1 : (List.range flatIdx.length).countP (fun f => p (flatIdx.getD f 0))
      = ((List.range flatIdx.length).map (fun f => flatIdx.getD f 0)).countP p := by
    rw [List.countP_map]
    rfl
  rw [h1, range_map_getD]

theorem bincount_length (l : List ℕ) :
    (bincount l).length = l.foldr (fun a m => max (a + 1) m) 0 := by
  simp [bincount]

theorem mem_lt_maxBound (l : List ℕ) (a : ℕ) (h : a ∈ l) :
    a < l.foldr (fun a m => max (a + 1) m) 0 := by
  induction l with
  | nil => simp at h
  | cons b bs ih =>
    rcases List.mem_cons.mp h with rfl | hm
    · simp only [List.foldr_cons]
      omega
    · have := ih hm
      simp only [List.foldr_cons]
      omega

/-- `tokens_per_expert[i]` (the `bincount().cumsum()` of line 282) counts the
assignments routed to experts `0..i`. -/
theorem tpe_getD (flatIdx : List ℕ) (i : ℕ)
    (hi : i < (cumsum (bincount flatIdx)).length) :
    (cumsum (bincount flatIdx)).getD i 0
      = flatIdx.countP (fun a => decide (a ≤ i)) := by
  have hlen : (cumsum (bincount flatIdx)).length = (bincount flatIdx).length :=
    scanSum_length _ _
  unfold cumsum
  rw [scanSum_getD 0 _ i (by omega), Nat.zero_add]
  unfold bincount
  rw [← List.map_take, List.take_range]
  have hmin : min (i + 1) (flatIdx.foldr (fun a m => max (a + 1) m) 0) = i + 1 := by
    have := bincount_length flatIdx
    omega
  rw [hmin, sum_range_count]

/-- `moe_infer`, with its `argsort`/`cumsum` slicing resolved: the loop is a
single `scatter_add_` fold over the expert-sorted assignment list, each
assignment contributing its routing weight times its expert's output on its
token. -/
theorem moe_infer_eq_fold (expertFn : ℕ → Vec → Vec) (topk : ℕ) (x : List Vec)
    (flatIdx : List ℕ) (flatW : List ℚ) :
    moe_infer expertFn topk x flatIdx flatW
      = ((List.range (cumsum (bincount flatIdx)).length).map
            (fun i => (argsortIdx flatIdx).filter
              (fun f => decide (flatIdx.getD f 0 = i)))).flatten.foldl
          (fun c f => scatterAddRow c (f / topk)
            (scaleVec (flatW.getD f 0)
              (expertFn (flatIdx.getD f 0) (x.getD (f / topk) []))))
          (zerosLike x) := by
  unfold moe_infer
  rw [← foldl_pieces_flatten]
  apply foldl_congr_mem
  intro i hi cache
  simp only []
  have hi' : i < (cumsum (bincount flatIdx)).length := by simpa using hi
  have hstart : (if i = 0 then 0 else (cumsum (bincount flatIdx)).getD (i - 1) 0)
      = (argsortIdx flatIdx).countP
          (fun f => decide (flatIdx.getD f 0 < i)) := by
    by_cases h0 : i = 0
    · subst h0
      rw [if_pos rfl]
      symm
      rw [List.countP_eq_zero]
      intro a _
      simp
    · rw [if_neg h0, tpe_getD _ _ (by omega), ← countP_argsort]
      apply List.countP_congr
      intro f _
      simp only [decide_eq_true_eq]
      omega
  have hend : (cumsum (bincount flatIdx)).getD i 0
      = (argsortIdx flatIdx).countP
          (fun f => decide (flatIdx.getD f 0 ≤ i)) := by
    rw [tpe_getD _ _ hi', ← countP_argsort]
  have hslice := sorted_slice_filter (fun f => flatIdx.getD f 0) i
    (argsortIdx flatIdx) (argsortIdx_sorted flatIdx)
  rw [hstart, hend, hslice]
  by_cases hempty : (argsortIdx flatIdx).countP
        (fun f => decide (flatIdx.getD f 0 < i))
      = (argsortIdx flatIdx).countP (fun f => decide (flatIdx.getD f 0 ≤ i))
  · rw [if_pos hempty]
    have hnil : (argsortIdx flatIdx).filter
        (fun f => decide (flatIdx.getD f 0 = i)) = [] := by
      rw [← hslice]
      have : (argsortIdx flatIdx).countP (fun f => decide (flatIdx.getD f 0 ≤ i))
          - (argsortIdx flatIdx).countP (fun f => decide (flatIdx.getD f 0 < i))
          = 0 := by omega
      rw [this, List.take_zero]
    rw [hnil]
    rfl
  · rw [if_neg hempty]
    apply foldl_congr_mem
    intro f hf acc
    have hkey : flatIdx.getD f 0 = i := by
      have := List.of_mem_filter hf
      simpa using this
    rw [hkey]

theorem sum_map_add_rat {α : Type} (l : List α) (f g : α → ℚ) :
    (l.map (fun v => f v + g v)).sum = (l.map f).sum + (l.map g).sum := by
  induction l with
  | nil => simp
  | cons a as ih =>
    simp only [List.map_cons, List.sum_cons, ih]
    ring

/-- Splitting a sum over a list by the (bounded) key of each element. -/
theorem partition_filter_sum (l : List ℕ) (key : ℕ → ℕ) (B : ℕ) (g : ℕ → ℚ)
    (hkey : ∀ f ∈ l, key f < B) :
    ((List.range B).map
        (fun i => ((l.filter (fun f => decide (key f = i))).map g).sum)).sum
      = (l.map g).sum := by
  induction l with
  | nil => simp
  | cons f rest ih =>
    have hsplit : ∀ i : ℕ,
        (((f :: rest).filter (fun f' => decide (key f' = i))).map g).sum
          = (if key f = i then g f else 0)
            + ((rest.filter (fun f' => decide (key f' = i))).map g).sum := by
      intro i
      rw [List.filter_cons]
      by_cases h : key f = i
      · simp [h]
      · simp [h]
    have hmapc : (List.range B).map
          (fun i => (((f :: rest).filter (fun f' => decide (key f' = i))).map g).sum)
        = (List.range B).map
          (fun i => (if key f = i then g f else 0)
            + ((rest.filter (fun f' => decide (key f' = i))).map g).sum) :=
      List.map_congr_left (fun i _ => hsplit i)
    rw [hmapc, sum_map_add_rat, sum_range_indicator_rat,
      if_pos (hkey f (List.mem_cons_self f rest)),
      ih (fun f' hf' => hkey f' (List.mem_cons_of_mem f hf'))]
    simp

/-- Reindexing a token-grouped sum: assignment slots `t*K .. t*K + K - 1` are
exactly those with `f / K = t`. -/
theorem sum_range_mul_div (T K t : ℕ) (g : ℕ → ℚ) (hK : 0 < K) (ht : t < T) :
    ((List.range (T * K)).map (fun f => if f / K = t then g f else 0)).sum
      = ((List.range K).map (fun j => g (t * K + j))).sum := by
  induction T with
  | zero => omega
  | succ m ih =>
    rw [show (m + 1) * K = m * K + K by ring, List.range_add,
      List.map_append, List.sum_append, List.map_map]
    by_cases hcase : t < m
    · rw [ih hcase]
      have hzero : ((List.range K).map
          ((fun f => if f / K = t then g f else 0) ∘ (fun x => m * K + x))).sum
          = 0 := by
        apply List.sum_eq_zero
        intro v hv
        rcases List.mem_map.mp hv with ⟨j, hj, rfl⟩
        have hjK : j < K := by simpa using hj
        have hdiv : (m * K + j) / K = m := by
          rw [mul_comm, Nat.mul_add_div hK, Nat.div_eq_of_lt hjK, Nat.add_zero]
        simp only [Function.comp_apply, hdiv]
        rw [if_neg (by omega)]
      rw [hzero, add_zero]
    · have hteq : t = m := by omega
      subst hteq
      have hzero : ((List.range (t * K)).map
          (fun f => if f / K = t then g f else 0)).sum = 0 := by
        apply List.sum_eq_zero
        intro v hv
        rcases List.mem_map.mp hv with ⟨f, hf, rfl⟩
        have hfK : f < t * K := by simpa using hf
        have hdiv : f / K < t := by
          rw [Nat.div_lt_iff_lt_mul hK]
          omega
        rw [if_neg (by omega)]
      rw [hzero, zero_add]
      congr 1
      apply List.map_congr_left
      intro j hj
      have hjK : j < K := by simpa using hj
      have hdiv : (t * K + j) / K = t := by
        rw [mul_comm, Nat.mul_add_div hK, Nat.div_eq_of_lt hjK, Nat.add_zero]
      simp [Function.comp_apply, hdiv]

/-- `topk_weight.view(-1, 1)` indexing: slot `t*K + j` of the flattened weight
tensor is entry `(t, j)` of the per-token weights. -/
theorem flatten_getD_uniform (topkW : List (List ℚ)) (K t j : ℕ)
    (hrow : ∀ r ∈ topkW, r.length = K) (ht : t < topkW.length) (hj : j < K) :
    topkW.flatten.getD (t * K + j) 0 = (topkW.getD t []).getD j 0 := by
  induction topkW generalizing t with
  | nil => simp at ht
  | cons r rest ih =>
    cases t with
    | zero =>
      simp only [List.flatten_cons, Nat.zero_mul, Nat.zero_add]
      rw [List.getD_append _ _ _ _ (by rw [hrow r (List.mem_cons_self r rest)]; exact hj)]
      rfl
    | succ t' =>
      simp only [List.flatten_cons]
      have hr := hrow r (List.mem_cons_self r rest)
      have hoff : (t' + 1) * K + j = r.length + (t' * K + j) := by
        rw [hr]
        ring
      rw [hoff, List.getD_append_right _ _ _ _ (by omega), Nat.add_sub_cancel_left]
      rw [ih t' (fun r' hr' => hrow r' (List.mem_cons_of_mem r hr')) (by simpa using ht)]
      rfl

/-- The expert-mask loop of lines 266-267 resolved: slot `f` of `y` holds its
expert's output on its token iff its routed expert index is in range. -/
theorem moeTrainY_eval (expertFn : ℕ → Vec → Vec) (nExperts topk : ℕ)
    (x : List Vec) (flatIdx : List ℕ) (f : ℕ) :
    moeTrainY expertFn nExperts topk x flatIdx f
      = if flatIdx.getD f 0 < nExperts
        then expertFn (flatIdx.getD f 0) (x.getD (f / topk) [])
        else [] := by
  unfold moeTrainY
  suffices h : ∀ (E : ℕ) (base : ℕ → Vec),
      ((List.range E).foldl
        (fun y i => fun f' =>
          if flatIdx.getD f' 0 = i then expertFn i (x.getD (f' / topk) [])
          else y f') base) f
        = if flatIdx.getD f 0 < E
          then expertFn (flatIdx.getD f 0) (x.getD (f / topk) [])
          else base f by
    rw [h nExperts (fun _ => [])]
  intro E
  induction E with
  | zero => intro base; simp
  | succ m ih =>
    intro base
    rw [List.range_succ, List.foldl_append, List.foldl_cons, List.foldl_nil]
    by_cases h : flatIdx.getD f 0 = m
    · rw [if_pos h, if_pos (by omega), h]
    · rw [if_neg h, ih base]
      by_cases h2 : flatIdx.getD f 0 < m
      · rw [if_pos h2, if_pos (by omega)]
      · rw [if_neg h2, if_neg (by omega)]

theorem scaleVec_getD (c : ℚ) (v : Vec) (d : ℕ) :
    (scaleVec c v).getD d 0 = c * v.getD d 0 := by
  by_cases h : d < v.length
  · unfold scaleVec
    rw [List.getD_eq_getElem _ _ (by simpa using h), List.getElem_map,
      List.getD_eq_getElem _ _ h]
  · unfold scaleVec
    rw [List.getD_eq_default _ _ (by simpa using Nat.le_of_not_lt h),
      List.getD_eq_default _ _ (Nat.le_of_not_lt h), mul_zero]

theorem moe_infer_length (expertFn : ℕ → Vec → Vec) (topk : ℕ) (x : List Vec)
    (flatIdx : List ℕ) (flatW : List ℚ) :
    (moe_infer expertFn topk x flatIdx flatW).length = x.length := by
  rw [moe_infer_eq_fold]
  rw [foldl_scatterAdd_length (fun f => f / topk)
    (fun f => scaleVec (flatW.getD f 0)
      (expertFn (flatIdx.getD f 0) (x.getD (f / topk) [])))]
  exact zerosLike_length x

theorem moe_infer_row_length (expertFn : ℕ → Vec → Vec) (topk : ℕ)
    (x : List Vec) (flatIdx : List ℕ) (flatW : List ℚ) (t : ℕ)
    (ht : t < x.length) :
    ((moe_infer expertFn topk x flatIdx flatW).getD t []).length
      = (x.getD t []).length := by
  rw [moe_infer_eq_fold]
  rw [foldl_scatterAdd_row_length (fun f => f / topk)
    (fun f => scaleVec (flatW.getD f 0)
      (expertFn (flatIdx.getD f 0) (x.getD (f / topk) [])))]
  exact zerosLike_row_length x t ht

/-- Entry `(t, d)` of `moe_infer`'s output, as one sum over all assignment
slots. -/
theorem moe_infer_entry (expertFn : ℕ → Vec → Vec) (topk : ℕ) (x : List Vec)
    (flatIdx : List ℕ) (flatW : List ℚ) (htopk : 0 < topk)
    (hN : flatIdx.length = x.length * topk) (t d : ℕ) (ht : t < x.length)
    (hd : d < (x.getD t []).length) :
    ((moe_infer expertFn topk x flatIdx flatW).getD t []).getD d 0
      = ((List.range flatIdx.length).map
          (fun f => if f / topk = t
            then flatW.getD f 0
              * (expertFn (flatIdx.getD f 0) (x.getD (f / topk) [])).getD d 0
            else 0)).sum := by
  have hmemL : ∀ f ∈ ((List.range (cumsum (bincount flatIdx)).length).map
      (fun i => (argsortIdx flatIdx).filter
        (fun f => decide (flatIdx.getD f 0 = i)))).flatten,
      f < flatIdx.length := by
    intro f hf
    rcases List.mem_flatten.mp hf with ⟨piece, hpiece, hfp⟩
    rcases List.mem_map.mp hpiece with ⟨i, _, rfl⟩
    exact argsortIdx_mem_lt flatIdx f (List.mem_of_mem_filter hfp)
  rw [moe_infer_eq_fold]
  rw [foldl_scatterAdd_entry (fun f => f / topk)
    (fun f => scaleVec (flatW.getD f 0)
      (expertFn (flatIdx.getD f 0) (x.getD (f / topk) []))) _ _ t d
    (by rw [zerosLike_length]; exact ht)
    (by rw [zerosLike_row_length x t ht]; exact hd)
    (fun f hf => by
      rw [zerosLike_length, Nat.div_lt_iff_lt_mul htopk]
      have := hmemL f hf
      omega)]
  rw [zerosLike_entry, zero_add]
  have hind : ∀ f : ℕ,
      (if f / topk = t
        then (scaleVec (flatW.getD f 0)
          (expertFn (flatIdx.getD f 0) (x.getD (f / topk) []))).getD d 0
        else 0)
      = (if f / topk = t
          then flatW.getD f 0
            * (expertFn (flatIdx.getD f 0) (x.getD (f / topk) [])).getD d 0
          else 0) := by
    intro f
    by_cases h : f / topk = t
    · rw [if_pos h, if_pos h, scaleVec_getD]
    · rw [if_neg h, if_neg h]
  rw [List.map_congr_left (fun f _ => hind f)]
  rw [List.map_flatten, List.sum_flatten, List.map_map, List.map_map]
  have hcomp : ((fun l : List ℚ => l.sum) ∘ List.map
        (fun f => if f / topk = t
          then flatW.getD f 0
            * (expertFn (flatIdx.getD f 0) (x.getD (f / topk) [])).getD d 0
          else 0))
      ∘ (fun i => (argsortIdx flatIdx).filter
          (fun f => decide (flatIdx.getD f 0 = i)))
      = fun i => (((argsortIdx flatIdx).filter
          (fun f => decide (flatIdx.getD f 0 = i))).map
            (fun f => if f / topk = t
              then flatW.getD f 0
                * (expertFn (flatIdx.getD f 0) (x.getD (f / topk) [])).getD d 0
              else 0)).sum := rfl
  rw [hcomp]
  rw [partition_filter_sum (argsortIdx flatIdx) (fun f => flatIdx.getD f 0)
    (cumsum (bincount flatIdx)).length _
    (fun f hf => by
      show flatIdx.getD f 0 < (cumsum (bincount flatIdx)).length
      have hlt := argsortIdx_mem_lt flatIdx f hf
      have hmem : flatIdx.getD f 0 ∈ flatIdx := getD_mem flatIdx f 0 hlt
      have := mem_lt_maxBound flatIdx _ hmem
      have hbl := bincount_length flatIdx
      have hcl : (cumsum (bincount flatIdx)).length = (bincount flatIdx).length :=
        scanSum_length _ _
      omega)]
  exact ((argsortIdx_perm flatIdx).map _).sum_eq

/-- C4: for the same inputs, routing decisions and expert weights, the
training-mode dispatch (replicate each token `top_k` times, expert per
replica, weight and sum) and the inference-mode dispatch (sort by expert,
batch per expert, scatter-add back) produce the same output — exactly, in
exact arithmetic (the float16 staging buffer of the training path is the
`± tolerance` the spec allows for). -/
theorem moe_dispatch_equiv (expertFn : ℕ → Vec → Vec) (nExperts topk : ℕ)
    (x : List Vec) (flatIdx : List ℕ) (topkW : List (List ℚ))
    (htopk : 0 < topk)
    (hlen : flatIdx.length = x.length * topk)
    (hWlen : topkW.length = x.length)
    (hrow : ∀ r ∈ topkW, r.length = topk)
    (hexperts : ∀ e ∈ flatIdx, e < nExperts) :
    moeTrainDispatch expertFn nExperts topk x flatIdx topkW
      = moe_infer expertFn topk x flatIdx topkW.flatten := by
  have htrainlen : (moeTrainDispatch expertFn nExperts topk x flatIdx topkW).length
      = x.length := by
    simp [moeTrainDispatch]
  apply List.ext_getElem
  · rw [htrainlen, moe_infer_length]
  intro t ht1 ht2
  have ht : t < x.length := by rw [htrainlen] at ht1; exact ht1
  have hrowtrain : (moeTrainDispatch expertFn nExperts topk x flatIdx topkW)[t]
      = (List.range (x.getD t []).length).map (fun d =>
        ((List.range topk).map (fun j =>
          (topkW.getD t []).getD j 0
            * (moeTrainY expertFn nExperts topk x flatIdx (t * topk + j)).getD d 0)).sum) := by
    unfold moeTrainDispatch
    simp only [List.getElem_map, List.getElem_range]
  have hrowinfer : (moe_infer expertFn topk x flatIdx topkW.flatten)[t]
      = (moe_infer expertFn topk x flatIdx topkW.flatten).getD t [] := by
    rw [List.getD_eq_getElem _ _ (by rw [moe_infer_length]; exact ht)]
  rw [hrowtrain, hrowinfer]
  apply List.ext_getElem
  · rw [List.length_map, List.length_range,
      moe_infer_row_length expertFn topk x flatIdx topkW.flatten t ht]
  intro d hd1 hd2
  have hd : d < (x.getD t []).length := by
    rw [List.length_map, List.length_range] at hd1
    exact hd1
  have hleft : ((List.range (x.getD t []).length).map (fun d =>
      ((List.range topk).map (fun j =>
        (topkW.getD t []).getD j 0
          * (moeTrainY expertFn nExperts topk x flatIdx (t * topk + j)).getD d 0)).sum))[d]
      = ((List.range topk).map (fun j =>
          (topkW.getD t []).getD j 0
            * (moeTrainY expertFn nExperts topk x flatIdx (t * topk + j)).getD d 0)).sum := by
    rw [List.getElem_map]
    congr 1
    rw [List.getElem_range]
  have hright : ((moe_infer expertFn topk x flatIdx topkW.flatten).getD t [])[d]
      = ((moe_infer expertFn topk x flatIdx topkW.flatten).getD t []).getD d 0 :=
    (List.getD_eq_getElem _ _ hd2).symm
  rw [hleft, hright]
  rw [moe_infer_entry expertFn topk x flatIdx topkW.flatten htopk hlen t d ht hd]
  rw [hlen]
  rw [sum_range_mul_div x.length topk t _ htopk ht]
  refine congrArg List.sum (List.map_congr_left ?_)
  intro j hj
  have hjk : j < topk := by simpa using hj
  have hdiv : (t * topk + j) / topk = t := by
    rw [mul_comm, Nat.mul_add_div htopk, Nat.div_eq_of_lt hjk, Nat.add_zero]
  have hfN : t * topk + j < flatIdx.length := by
    rw [hlen]
    calc t * topk + j < t * topk + topk := by omega
      _ = (t + 1) * topk := by ring
      _ ≤ x.length * topk := Nat.mul_le_mul_right topk (by omega)
  have hYe : moeTrainY expertFn nExperts topk x flatIdx (t * topk + j)
      = expertFn (flatIdx.getD (t * topk + j) 0)
          (x.getD ((t * topk + j) / topk) []) := by
    rw [moeTrainY_eval]
    rw [if_pos (hexperts _ (getD_mem flatIdx _ 0 hfN))]
  rw [hYe, hdiv]
  rw [flatten_getD_uniform topkW topk t j hrow (by omega) hjk]

/-- Witness for `moe_dispatch_equiv`: two tokens, two experts, `top_k = 2`,
concrete affine experts and weights. -/
theorem moe_dispatch_equiv_witness :
    moeTrainDispatch (fun e v => v.map (fun a => a + (e : ℚ))) 2 2
        [[1, 2], [3, 4]] [0, 1, 1, 0] [[1 / 2, 1 / 2], [1 / 3, 2 / 3]]
      = moe_infer (fun e v => v.map (fun a => a + (e : ℚ))) 2
          [[1, 2], [3, 4]] [0, 1, 1, 0]
          ([[1 / 2, 1 / 2], [1 / 3, 2 / 3]] : List (List ℚ)).flatten :=
  moe_dispatch_equiv (fun e v => v.map (fun a => a + (e : ℚ))) 2 2
    [[1, 2], [3, 4]] [0, 1, 1, 0] [[1 / 2, 1 / 2], [1 / 3, 2 / 3]]
    (by decide) (by decide) (by decide) (by decide) (by decide)

/-! ## The transformer forward pass (`model/model.py`, lines 16-147, 302-371)

Batch size one throughout (`_stream` decodes one row).  Positions are
absolute: the model slices `pos_cis[start_pos : start_pos + seq_len]`
(line 357), so a layer sees each token's absolute position; `posCis p i` is
the precomputed complex rotation `(cos, sin)` for position `p` and frequency
index `i` — kept abstract, as `precompute_pos_cis` builds it from
transcendentals.  Dropout layers (`attn_dropout`, `resid_dropout`, the
embedding dropout, `FeedForward.dropout`) are identities: evaluation mode.
The flash branch of `Attention.forward` (lines 126-136) computes the same
masked scaled-dot-product attention as the explicit branch (lines 138-142)
with `dropout_p = 0.0` in eval mode, so the mathematics is embedded once. -/

/-- `RMSNorm.forward` (line 23): `weight * (x * rsqrt(mean(x²) + eps))`, with
`torch.rsqrt` abstracted as `rsqrtF`. -/
def rmsnorm (rsqrtF : ℚ → ℚ) (eps : ℚ) (w : Vec) (x : Vec) : Vec :=
  List.zipWith
    (fun wi xi => wi * (xi * rsqrtF ((x.map (fun a => a * a)).sum / (x.length : ℚ) + eps)))
    w x

/-- One complex pair `(re, im)` of `apply_rotary_emb` multiplied by the unit
rotation `cs = (cos, sin)`. -/
def rotPair (cs : ℚ × ℚ) (ab : List ℚ) : List ℚ :=
  match ab with
  | [a, b] => [a * cs.1 - b * cs.2, a * cs.2 + b * cs.1]
  | l => l

/-- `apply_rotary_emb` on one head vector at absolute position `p`:
reinterpret as `head_dim/2` complex pairs, rotate each by `posCis p i`,
flatten back (lines 39-56; `head_dim` is even by configuration, so the
odd-trailing-chunk case never arises). -/
def ropeVec (posCis : ℕ → ℕ → ℚ × ℚ) (p : ℕ) (v : Vec) : Vec :=
  ((chunks 2 v).enum.map (fun pr => rotPair (posCis p pr.1) pr.2)).flatten

/-- The weights of one `Attention` module and its head geometry. `sqrtHd`
abstracts `math.sqrt(self.head_dim)` (line 138). -/
structure AttnParams where
  wq : Mat
  wk : Mat
  wv : Mat
  wo : Mat
  nHeads : ℕ
  nKvHeads : ℕ
  headDim : ℕ
  sqrtHd : ℚ

/-- Per-position query heads: project by `wq`, reshape to heads, rotate
(lines 104-109). -/
def qHeadsAt (A : AttnParams) (posCis : ℕ → ℕ → ℚ × ℚ) (p : ℕ) (x : Vec) :
    List Vec :=
  (chunks A.headDim (matVec A.wq x)).map (ropeVec posCis p)

/-- Per-position key heads (projected by `wk`, rotated). -/
def kHeadsAt (A : AttnParams) (posCis : ℕ → ℕ → ℚ × ℚ) (p : ℕ) (x : Vec) :
    List Vec :=
  (chunks A.headDim (matVec A.wk x)).map (ropeVec posCis p)

/-- Per-position value heads (projected by `wv`, not rotated). -/
def vHeadsAt (A : AttnParams) (x : Vec) : List Vec :=
  chunks A.headDim (matVec A.wv x)

/-- One layer's KV cache entry: per past position, the per-kv-head key and
value vectors (`past_key, past_value` of shape `(bsz, seq, n_kv_heads,
head_dim)`). -/
structure KVCache where
  ks : List (List Vec)
  vs : List (List Vec)
deriving DecidableEq

/-- The additive causal-mask term of `scores += self.mask[:, :, :seq_len,
:seq_len]` (line 139) for query row `i` and key column `j`, where `L` is the
current call's `seq_len` and `T` the total key length.  The registered mask is
upper-triangular `-inf` (`none`); broadcasting against the `(L, T)`-shaped
scores is only shape-correct for `L = T` (the no-cache full pass: causal) and
`L = 1` (the cached single-token step: the `(1,1)` slice holds the diagonal
`0`, so nothing is masked — correct, as the sole query is the last position).
Other shapes raise in PyTorch and are unreachable from the model's callers. -/
def maskTerm (L T i j : ℕ) : Option ℚ :=
  if L = T then (if i < j then none else some 0) else some 0

/-- The attention output for one query row: masked scaled-dot-product scores
against all `T = ks.length` key columns (lines 138-142: `scores = q @ k.T /
sqrt(head_dim) + mask; softmax; @ v`, attention dropout inactive), GQA head
expansion (query head `h` reads kv head `h / n_rep`, lines 120-124),
concatenated heads projected by `wo` (lines 145-146, residual dropout
inactive). `L` is the call's `seq_len` and `i` the query's row index. -/
def attnOut (exp : ℚ → ℚ) (A : AttnParams) (i L : ℕ) (qh : List Vec)
    (ks vs : List (List Vec)) : Vec :=
  let T := ks.length
  let nRep := A.nHeads / A.nKvHeads
  matVec A.wo ((List.range A.nHeads).map (fun h =>
    let w := softmaxRow exp ((List.range T).map (fun j =>
      (maskTerm L T i j).map
        (fun m => dot (qh.getD h []) ((ks.getD j []).getD (h / nRep) [])
          / A.sqrtHd + m)))
    (List.range A.headDim).map (fun d =>
      ((List.range T).map
        (fun j => w.getD j 0 * ((vs.getD j []).getD (h / nRep) []).getD d 0)).sum))).flatten

/-- `Attention.forward` (lines 98-147) for a batch of one: project, rotate,
concatenate the cache along the sequence axis (lines 115-117), then the
masked attention of `attnOut` for every query row.  Returns the outputs and
the new cache entry `(xk, xv)` (returned when `use_cache` is set; computing
it unconditionally does not change the outputs). -/
def attnForward (exp : ℚ → ℚ) (A : AttnParams) (posCis : ℕ → ℕ → ℚ × ℚ)
    (startPos : ℕ) (past : Option KVCache) (xs : List Vec) :
    List Vec × KVCache :=
  let pks := match past with | none => [] | some c => c.ks
  let pvs := match past with | none => [] | some c => c.vs
  let ks := pks ++ (List.range xs.length).map
    (fun i => kHeadsAt A posCis (startPos + i) (xs.getD i []))
  let vs := pvs ++ xs.map (vHeadsAt A)
  ((List.range xs.length).map (fun i =>
    attnOut exp A i xs.length
      (qHeadsAt A posCis (startPos + i) (xs.getD i [])) ks vs),
    ⟨ks, vs⟩)

/-- One `MiniMindBlock` (lines 302-325).  `ffn` is the block's feed-forward
sublayer as a per-position function: a dense `FeedForward`
(`W2(silu(W1 v) ⊙ W3 v)`, dropout inactive) or an MoE layer — both act
position-wise, and every theorem below holds for an arbitrary `ffn`. -/
structure BlockParams where
  attn : AttnParams
  attnNormW : Vec
  ffnNormW : Vec
  ffn : Vec → Vec

/-- `MiniMindBlock.forward` (lines 316-325): pre-norm attention with residual,
then pre-norm feed-forward with residual. -/
def blockForward (exp rsqrtF : ℚ → ℚ) (eps : ℚ) (B : BlockParams)
    (posCis : ℕ → ℕ → ℚ × ℚ) (startPos : ℕ) (past : Option KVCache)
    (xs : List Vec) : List Vec × KVCache :=
  let r := attnForward exp B.attn posCis startPos past
    (xs.map (rmsnorm rsqrtF eps B.attnNormW))
  let h := List.zipWith addVec xs r.1
  (h.map (fun v => addVec v (B.ffn (rmsnorm rsqrtF eps B.ffnNormW v))), r.2)

/-- `MiniMindLM`'s parameters.  `E` is the tied embedding/output matrix
(line 343: `self.tok_embeddings.weight = self.output.weight`). -/
structure ModelParams where
  E : Mat
  blocks : List BlockParams
  normW : Vec
  eps : ℚ
  posCis : ℕ → ℕ → ℚ × ℚ
  expF : ℚ → ℚ
  rsqrtF : ℚ → ℚ

/-- The layer loop of `MiniMindLM.forward` (lines 358-365): run each block in
order, feeding each its own cache slot, collecting the new per-layer caches. -/
def stackForward (exp rsqrtF : ℚ → ℚ) (eps : ℚ) (posCis : ℕ → ℕ → ℚ × ℚ)
    (startPos : ℕ) :
    List BlockParams → List (Option KVCache) → List Vec →
      List Vec × List KVCache
  | [], _, xs => (xs, [])
  | B :: Bs, pasts, xs =>
    let r := blockForward exp rsqrtF eps B posCis startPos (pasts.headD none) xs
    let rest := stackForward exp rsqrtF eps posCis startPos Bs pasts.tail r.1
    (rest.1, r.2 :: rest.2)

/-- `MiniMindLM.forward` (lines 349-371): embed (dropout inactive), run the
block stack with the `pos_cis` window starting at `start_pos`, final RMSNorm,
project to vocabulary logits with the tied matrix.  Returns per-position
logits and the per-layer cache entries. -/
def modelForward (M : ModelParams) (toks : List ℕ)
    (pasts : Option (List KVCache)) (startPos : ℕ) :
    List Vec × List KVCache :=
  let h := toks.map (fun t => M.E.getD t [])
  let ps := match pasts with
    | none => List.replicate M.blocks.length none
    | some l => l.map some
  let r := stackForward M.expF M.rsqrtF M.eps M.posCis startPos M.blocks ps h
  ((r.1.map (rmsnorm M.rsqrtF M.eps M.normW)).map (matVec M.E), r.2)

/-- The cached decoding loop of `_stream` (lines 403-405): one token at a
time, with `start_pos = current length - 1` (= the absolute position of the
token being fed) and the carried per-layer caches; tracks the most recent
final-position logits. -/
def decodeLoop (M : ModelParams) :
    ℕ → List KVCache → Vec → List ℕ → Vec × List KVCache
  | _, kvs, lg, [] => (lg, kvs)
  | pos, kvs, _, t :: ts =>
    let r := modelForward M [t] (some kvs) pos
    decodeLoop M (pos + 1) r.2 (r.1.getLastD []) ts

/-- KV-cache incremental decoding as `_stream` drives it (lines 398-406):
process the whole prompt once from position `0` (first iteration,
`past_key_values = None`), then the continuation tokens one at a time with
the carried caches; return the final-position logits (line 406 reads
`out.logits[:, -1, :]`). -/
def cachedDecode (M : ModelParams) (prompt rest : List ℕ) :
    Vec × List KVCache :=
  let r := modelForward M prompt none 0
  decodeLoop M prompt.length r.2 (r.1.getLastD []) rest

theorem getD_append_self {α : Type} (l : List α) (a d : α) :
    (l ++ [a]).getD l.length d = a := by
  rw [List.getD_append_right _ _ _ _ (le_refl l.length), Nat.sub_self]
  rfl

theorem softmaxRow_length (exp : ℚ → ℚ) (row : List (Option ℚ)) :
    (softmaxRow exp row).length = row.length := by
  simp [softmaxRow]

/-- Appending a fully-masked (`-inf`) score contributes softmax weight `0`. -/
theorem softmaxRow_append_none (exp : ℚ → ℚ) (row : List (Option ℚ)) :
    softmaxRow exp (row ++ [none]) = softmaxRow exp row ++ [0] := by
  unfold softmaxRow
  have h1 : (row ++ [none]).map (expO exp) = row.map (expO exp) ++ [0] := by
    rw [List.map_append]
    rfl
  rw [h1, List.sum_append]
  simp only [List.sum_cons, List.sum_nil, add_zero]
  rw [List.map_append]
  congr 1
  simp

/-- Generic single-append fact for position-indexed projections: projecting
`xs ++ [x]` gives the projections of `xs` plus the projection of `x` at
position `xs.length`. -/
theorem range_map_getD_append {α β : Type} (xs : List α) (x : α) (d : α)
    (g : ℕ → α → β) :
    (List.range (xs.length + 1)).map (fun i => g i ((xs ++ [x]).getD i d))
      = (List.range xs.length).map (fun i => g i (xs.getD i d))
        ++ [g xs.length x] := by
  rw [List.range_succ, List.map_append]
  congr 1
  · apply List.map_congr_left
    intro i hi
    rw [List.getD_append _ _ _ _ (by simpa using hi)]
  · simp only [List.map_cons, List.map_nil]
    rw [getD_append_self]

/-- A weighted sum whose appended last weight is `0` collapses to the prefix
sum. -/
theorem sum_weighted_append_zero (w : List ℚ) (g g' : ℕ → ℚ) (n : ℕ)
    (hwlen : w.length = n) (hg : ∀ j < n, g j = g' j) :
    ((List.range (n + 1)).map (fun j => (w ++ [0]).getD j 0 * g j)).sum
      = ((List.range n).map (fun j => w.getD j 0 * g' j)).sum := by
  rw [List.range_succ, List.map_append, List.sum_append]
  simp only [List.map_cons, List.map_nil, List.sum_cons, List.sum_nil, add_zero]
  have hlast : (w ++ [0]).getD n 0 = 0 := by
    rw [← hwlen]
    exact getD_append_self _ _ _
  rw [hlast, zero_mul, add_zero]
  apply congrArg
  apply List.map_congr_left
  intro j hj
  have hjn : j < n := by simpa using hj
  rw [List.getD_append _ _ _ _ (by omega), hg j hjn]

/-- Masked extension: a query row `i < n` of a causal full pass is unaffected
by appending the key/value of a LATER position `n` — its mask entry is `-inf`
so its softmax weight is `0`. -/
theorem attnOut_append_masked (exp : ℚ → ℚ) (A : AttnParams) (i n : ℕ)
    (hi : i < n) (qh : List Vec) (ks vs : List (List Vec)) (kx vx : List Vec)
    (hks : ks.length = n) (hvs : vs.length = n) :
    attnOut exp A i (n + 1) qh (ks ++ [kx]) (vs ++ [vx])
      = attnOut exp A i n qh ks vs := by
  unfold attnOut
  simp only [List.length_append, List.length_cons, List.length_nil, hks]
  congr 1
  apply congrArg
  apply List.map_congr_left
  intro h _
  have hscore : (List.range (n + 1)).map (fun j =>
        (maskTerm (n + 1) (n + 1) i j).map
          (fun m => dot (qh.getD h []) (((ks ++ [kx]).getD j []).getD (h / (A.nHeads / A.nKvHeads)) [])
            / A.sqrtHd + m))
      = (List.range n).map (fun j =>
          (maskTerm n n i j).map
            (fun m => dot (qh.getD h []) ((ks.getD j []).getD (h / (A.nHeads / A.nKvHeads)) [])
              / A.sqrtHd + m)) ++ [none] := by
    rw [List.range_succ, List.map_append]
    congr 1
    · apply List.map_congr_left
      intro j hj
      have hjn : j < n := by simpa using hj
      rw [List.getD_append _ _ _ _ (by omega)]
      have hmask : maskTerm (n + 1) (n + 1) i j = maskTerm n n i j := by
        unfold maskTerm
        rw [if_pos rfl, if_pos rfl]
      rw [hmask]
    · simp only [List.map_cons, List.map_nil]
      have hmask : maskTerm (n + 1) (n + 1) i n = none := by
        unfold maskTerm
        rw [if_pos rfl, if_pos hi]
      rw [hmask]
      rfl
  rw [hscore, softmaxRow_append_none]
  apply List.map_congr_left
  intro d _
  exact sum_weighted_append_zero _ _ _ n
    (by rw [softmaxRow_length, List.length_map, List.length_range])
    (fun j hjn => by rw [List.getD_append _ _ _ _ (by omega)])

/-- The last query row of a causal full pass attends to every key column, and
so does the single query row of a cached one-token step: their mask terms
agree (all zero), so the outputs agree. -/
theorem attnOut_last_eq_single (exp : ℚ → ℚ) (A : AttnParams) (n : ℕ)
    (qh : List Vec) (ks vs : List (List Vec)) (hks : ks.length = n + 1) :
    attnOut exp A n (n + 1) qh ks vs = attnOut exp A 0 1 qh ks vs := by
  unfold attnOut
  simp only []
  congr 1
  apply congrArg
  apply List.map_congr_left
  intro h _
  have hmask : ∀ j < ks.length,
      maskTerm (n + 1) ks.length n j = maskTerm 1 ks.length 0 j := by
    intro j hj
    unfold maskTerm
    rw [hks] at hj ⊢
    by_cases h1 : n + 1 = 1
    · have hn0 : n = 0 := by omega
      have hj0 : j = 0 := by omega
      subst hn0
      subst hj0
      rfl
    · rw [if_pos (show n + 1 = n + 1 from rfl),
        if_neg (show ¬ n < j by omega),
        if_neg (show ¬ (1 : ℕ) = n + 1 by omega)]
  have hscore : (List.range ks.length).map (fun j =>
        (maskTerm (n + 1) ks.length n j).map
          (fun m => dot (qh.getD h []) ((ks.getD j []).getD (h / (A.nHeads / A.nKvHeads)) [])
            / A.sqrtHd + m))
      = (List.range ks.length).map (fun j =>
          (maskTerm 1 ks.length 0 j).map
            (fun m => dot (qh.getD h []) ((ks.getD j []).getD (h / (A.nHeads / A.nKvHeads)) [])
              / A.sqrtHd + m)) := by
    apply List.map_congr_left
    intro j hj
    rw [hmask j (by simpa using hj)]
  rw [hscore]

/-- `Attention.forward` commutes with appending one position: the full pass on
`xs ++ [x]` equals the full pass on `xs` followed by the cached single-token
pass on `[x]` at `start_pos = xs.length`, both in outputs and in the
returned cache. -/
theorem attnForward_append (exp : ℚ → ℚ) (A : AttnParams)
    (posCis : ℕ → ℕ → ℚ × ℚ) (xs : List Vec) (x : Vec) :
    attnForward exp A posCis 0 none (xs ++ [x])
      = ((attnForward exp A posCis 0 none xs).1
          ++ (attnForward exp A posCis xs.length
              (some (attnForward exp A posCis 0 none xs).2) [x]).1,
        (attnForward exp A posCis xs.length
          (some (attnForward exp A posCis 0 none xs).2) [x]).2) := by
  unfold attnForward
  simp only [List.nil_append, List.length_append, List.length_cons,
    List.length_nil, List.range_succ, List.range_zero, List.map_cons,
    List.map_nil, List.getD_cons_zero, Nat.zero_add, Nat.add_zero]
  have hgetDlast : (xs ++ [x]).getD xs.length [] = x := getD_append_self xs x []
  have hKS : (List.range xs.length ++ [xs.length]).map
        (fun i => kHeadsAt A posCis i ((xs ++ [x]).getD i []))
      = (List.range xs.length).map (fun i => kHeadsAt A posCis i (xs.getD i []))
        ++ [kHeadsAt A posCis xs.length x] := by
    rw [List.map_append]
    congr 1
    · apply List.map_congr_left
      intro i hi
      rw [List.getD_append _ _ _ _ (by simpa using hi)]
    · simp only [List.map_cons, List.map_nil, hgetDlast]
  have hVS : (xs ++ [x]).map (vHeadsAt A)
      = xs.map (vHeadsAt A) ++ [vHeadsAt A x] := by
    rw [List.map_append]
    rfl
  rw [hKS, hVS]
  congr 1
  rw [List.map_append]
  congr 1
  · apply List.map_congr_left
    intro i hi
    have hilt : i < xs.length := by simpa using hi
    rw [List.getD_append _ _ _ _ hilt]
    exact attnOut_append_masked exp A i xs.length hilt _ _ _ _ _
      (by simp) (by simp)
  · simp only [List.map_cons, List.map_nil, hgetDlast]
    rw [attnOut_last_eq_single exp A xs.length _ _ _ (by simp)]

theorem attnForward_fst_length (exp : ℚ → ℚ) (A : AttnParams)
    (posCis : ℕ → ℕ → ℚ × ℚ) (startPos : ℕ) (past : Option KVCache)
    (xs : List Vec) :
    (attnForward exp A posCis startPos past xs).1.length = xs.length := by
  simp [attnForward]

theorem blockForward_fst_length (exp rsqrtF : ℚ → ℚ) (eps : ℚ)
    (B : BlockParams) (posCis : ℕ → ℕ → ℚ × ℚ) (startPos : ℕ)
    (past : Option KVCache) (xs : List Vec) :
    (blockForward exp rsqrtF eps B posCis startPos past xs).1.length
      = xs.length := by
  unfold blockForward
  simp [attnForward_fst_length]

/-- `MiniMindBlock.forward` commutes with appending one position. -/
theorem blockForward_append (exp rsqrtF : ℚ → ℚ) (eps : ℚ) (B : BlockParams)
    (posCis : ℕ → ℕ → ℚ × ℚ) (xs : List Vec) (x : Vec) :
    blockForward exp rsqrtF eps B posCis 0 none (xs ++ [x])
      = ((blockForward exp rsqrtF eps B posCis 0 none xs).1
          ++ (blockForward exp rsqrtF eps B posCis xs.length
              (some (blockForward exp rsqrtF eps B posCis 0 none xs).2) [x]).1,
        (blockForward exp rsqrtF eps B posCis xs.length
          (some (blockForward exp rsqrtF eps B posCis 0 none xs).2) [x]).2) := by
  unfold blockForward
  simp only []
  rw [List.map_append]
  simp only [List.map_cons, List.map_nil]
  rw [attnForward_append exp B.attn posCis
    (xs.map (rmsnorm rsqrtF eps B.attnNormW)) (rmsnorm rsqrtF eps B.attnNormW x)]
  simp only [List.length_map]
  rw [List.zipWith_append _ xs [x] _ _
    (by rw [attnForward_fst_length, List.length_map])]
  rw [List.map_append]

theorem stackForward_fst_length (exp rsqrtF : ℚ → ℚ) (eps : ℚ)
    (posCis : ℕ → ℕ → ℚ × ℚ) (startPos : ℕ) (Bs : List BlockParams)
    (pasts : List (Option KVCache)) (xs : List Vec) :
    (stackForward exp rsqrtF eps posCis startPos Bs pasts xs).1.length
      = xs.length := by
  induction Bs generalizing pasts xs with
  | nil => rfl
  | cons B Bs ih =>
    simp only [stackForward]
    rw [ih, blockForward_fst_length]

/-- The block stack commutes with appending one position: the full pass on
`xs ++ [x]` equals the full pass on `xs` followed by a one-position pass that
starts from the full pass's caches, layer by layer. -/
theorem stackForward_append (exp rsqrtF : ℚ → ℚ) (eps : ℚ)
    (posCis : ℕ → ℕ → ℚ × ℚ) (Bs : List BlockParams) (xs : List Vec)
    (x : Vec) :
    stackForward exp rsqrtF eps posCis 0 Bs
        (List.replicate Bs.length none) (xs ++ [x])
      = ((stackForward exp rsqrtF eps posCis 0 Bs
            (List.replicate Bs.length none) xs).1
          ++ (stackForward exp rsqrtF eps posCis xs.length Bs
              ((stackForward exp rsqrtF eps posCis 0 Bs
                (List.replicate Bs.length none) xs).2.map some) [x]).1,
        (stackForward exp rsqrtF eps posCis xs.length Bs
          ((stackForward exp rsqrtF eps posCis 0 Bs
            (List.replicate Bs.length none) xs).2.map some) [x]).2) := by
  induction Bs generalizing xs x with
  | nil => rfl
  | cons B Bs ih =>
    simp only [stackForward, List.length_cons, List.replicate_succ,
      List.headD_cons, List.tail_cons, List.map_cons]
    rw [blockForward_append exp rsqrtF eps B posCis xs x]
    obtain ⟨y, hy⟩ := List.length_eq_one.mp
      (blockForward_fst_length exp rsqrtF eps B posCis xs.length
        (some (blockForward exp rsqrtF eps B posCis 0 none xs).2) [x]
        |>.trans (List.length_singleton x))
    rw [hy]
    rw [ih (blockForward exp rsqrtF eps B posCis 0 none xs).1 y]
    rw [blockForward_fst_length]

theorem modelForward_fst_length (M : ModelParams) (toks : List ℕ)
    (pasts : Option (List KVCache)) (startPos : ℕ) :
    (modelForward M toks pasts startPos).1.length = toks.length := by
  unfold modelForward
  simp [stackForward_fst_length]

/-- `MiniMindLM.forward` commutes with appending one token: a full non-cached
pass on `toks ++ [t]` equals the full pass on `toks` followed by the cached
single-token pass on `[t]` at `start_pos = toks.length`. -/
theorem modelForward_append (M : ModelParams) (toks : List ℕ) (t : ℕ) :
    modelForward M (toks ++ [t]) none 0
      = ((modelForward M toks none 0).1
          ++ (modelForward M [t] (some (modelForward M toks none 0).2)
              toks.length).1,
        (modelForward M [t] (some (modelForward M toks none 0).2)
          toks.length).2) := by
  unfold modelForward
  simp only []
  rw [List.map_append]
  simp only [List.map_cons, List.map_nil]
  rw [stackForward_append M.expF M.rsqrtF M.eps M.posCis M.blocks
    (toks.map (fun tk => M.E.getD tk [])) (M.E.getD t [])]
  simp only [List.length_map]
  rw [List.map_append, List.map_append]

/-- C1: decoding with the KV cache — the prompt once, then one token at a
time with `start_pos = current length - 1` and the carried per-layer caches —
produces the same final-position logits as one non-cached forward pass over
the whole sequence.  Holds for every model configuration (any weights, any
head geometry, any instantiation of the abstracted `exp`/`rsqrt`/`pos_cis`
functions), with dropout inactive (evaluation mode); sampling settings do not
enter: the compared objects are the logits themselves. -/
theorem kv_cache_incremental_equiv (M : ModelParams) (prompt rest : List ℕ) :
    (cachedDecode M prompt rest).1
      = (modelForward M (prompt ++ rest) none 0).1.getLastD [] := by
  induction rest generalizing prompt with
  | nil =>
    unfold cachedDecode
    simp only [decodeLoop, List.append_nil]
  | cons t ts ih =>
    have hne : (modelForward M [t] (some (modelForward M prompt none 0).2)
        prompt.length).1 ≠ [] := by
      intro hnil
      have := modelForward_fst_length M [t]
        (some (modelForward M prompt none 0).2) prompt.length
      rw [hnil] at this
      simp at this
    have heq : cachedDecode M prompt (t :: ts)
        = cachedDecode M (prompt ++ [t]) ts := by
      unfold cachedDecode
      simp only [decodeLoop]
      rw [modelForward_append M prompt t]
      rw [getLastD_append_right _ _ _ hne]
      rw [List.length_append, List.length_cons, List.length_nil]
    rw [heq, ih (prompt ++ [t]), List.append_assoc]
    rfl

/-! ## The shared `OUT` structure (`MiniMindLM.__init__` line 347,
`MiniMindLM.forward` lines 366-371)

`__init__` allocates ONE `CausalLMOutputWithPast` (`self.OUT`); every
`forward` call writes `logits`, `aux_loss` and `past_key_values` into that
same object and returns it.  Python objects are references, so the returned
result of one call is aliased by — and overwritten during — every later call.
Modelled with an explicit object heap: `outAddr` is the address of `self.OUT`
allocated at construction; `lmForwardRef` writes the freshly computed fields
at that address and returns the address.  `aux_loss` is `0`: for a dense
configuration (`use_moe = False`) the line-367 sum over MoE blocks is empty
(the aliasing behaviour is independent of its value). -/

/-- The fields `forward` stores into `self.OUT`. -/
structure LMOut where
  logits : List Vec
  aux_loss : ℚ
  past_key_values : List KVCache
deriving DecidableEq

/-- `MiniMindLM`'s state: parameters plus the one heap-allocated `OUT`. -/
structure LMRefState where
  model : ModelParams
  outAddr : ℕ
  heap : List LMOut

/-- `MiniMindLM.__init__` (line 347): allocate the single `OUT` object. -/
def lmInit (M : ModelParams) : LMRefState :=
  ⟨M, 0, [⟨[], 0, []⟩]⟩

/-- `MiniMindLM.forward` (lines 349-371) at the object level: compute, then
`self.OUT.__setitem__(...)` thrice (overwrite the shared object in place) and
return `self.OUT` — i.e. the same address every call, no fresh allocation. -/
def lmForwardRef (s : LMRefState) (toks : List ℕ)
    (pasts : Option (List KVCache)) (startPos : ℕ) : LMRefState × ℕ :=
  let r := modelForward s.model toks pasts startPos
  (⟨s.model, s.outAddr,
    s.heap.set s.outAddr ⟨r.1, 0, r.2⟩⟩, s.outAddr)

/-- A concrete minimal configuration (vocab 1, dim 1, no blocks) for the
counterexample. -/
def tinyModel : ModelParams :=
  { E := [[1]], blocks := [], normW := [1], eps := 1 / 100000,
    posCis := fun _ _ => (1, 0), expF := fun q => q, rsqrtF := fun _ => 1 }

/-- C9 counterexample: two successive `forward` calls (inputs `[0]` then
`[0, 0]`) return the SAME object address, and after the second call the
object read through the first call's returned address holds the second
call's result — the first result has been overwritten, so the returned
structure is not a fresh unaliased value. -/
theorem forward_out_aliased_counterexample :
    (lmForwardRef (lmForwardRef (lmInit tinyModel) [0] none 0).1 [0, 0] none 0).2
        = (lmForwardRef (lmInit tinyModel) [0] none 0).2
      ∧ (lmForwardRef (lmForwardRef (lmInit tinyModel) [0] none 0).1
            [0, 0] none 0).1.heap.getD
            ((lmForwardRef (lmInit tinyModel) [0] none 0).2) ⟨[], 0, []⟩
          ≠ (lmForwardRef (lmInit tinyModel) [0] none 0).1.heap.getD
            ((lmForwardRef (lmInit tinyModel) [0] none 0).2) ⟨[], 0, []⟩ := by
  refine ⟨rfl, ?_⟩
  intro hcontra
  have hlen := congrArg (fun o : LMOut => o.logits.length) hcontra
  simp only [] at hlen
  have h2 : (lmForwardRef (lmForwardRef (lmInit tinyModel) [0] none 0).1
      [0, 0] none 0).1.heap.getD
      ((lmForwardRef (lmInit tinyModel) [0] none 0).2) ⟨[], 0, []⟩
      = ⟨(modelForward tinyModel [0, 0] none 0).1, 0,
          (modelForward tinyModel [0, 0] none 0).2⟩ := rfl
  have h1 : (lmForwardRef (lmInit tinyModel) [0] none 0).1.heap.getD
      ((lmForwardRef (lmInit tinyModel) [0] none 0).2) ⟨[], 0, []⟩
      = ⟨(modelForward tinyModel [0] none 0).1, 0,
          (modelForward tinyModel [0] none 0).2⟩ := rfl
  rw [h1, h2] at hlen
  simp only [modelForward_fst_length] at hlen
  simp at hlen

/-- C9 (amended): `forward` allocates nothing; it returns the address of the
one `OUT` object created at construction, overwriting that object's fields in
place — so consecutive calls alias. -/
theorem lmForwardRef_reuses_out_buffer (s : LMRefState) (toks : List ℕ)
    (pasts : Option (List KVCache)) (startPos : ℕ) :
    (lmForwardRef s toks pasts startPos).2 = s.outAddr
      ∧ (lmForwardRef s toks pasts startPos).1.outAddr = s.outAddr
      ∧ (lmForwardRef s toks pasts startPos).1.heap.length = s.heap.length := by
  refine ⟨rfl, rfl, ?_⟩
  unfold lmForwardRef
  simp

end MiniMind
